import Mathlib

/-!
Shallow embedding of the hashgraph consensus core (gossip graph, voter,
ACL state machine, signature accumulators) together with theorems checking
the natural-language specification against it.

Modelling conventions:
* `Hash`, `Author` are `Nat` (32-byte digests and Ed25519 keys are opaque
  identifiers to the algorithms; only equality and ordering are used).
* `Sig` is a byte list (the code reads byte 32 for the coin bit and xors
  signatures bytewise).
* Rust `HashMap`s become association lists with overwrite-on-insert; the
  code never iterates over a map, so iteration order is irrelevant.
* Cryptographic hashing and signature verification are parameters
  (`hashFn`, `verify`); concrete runs instantiate them with an injective
  stand-in and the always-accepting verifier.
* Rust iterator loops that terminate by visited-set arguments become
  fuel-bounded recursions; the canonical fuel is far larger than any
  terminating execution of the concrete graphs used here needs, and
  generic theorems hold for every fuel value.
* A Rust `panic!`/`unwrap` path is collapsed to a default value; each such
  spot is marked with a comment.  No theorem below depends on a collapsed
  panic path except through explicit hypotheses that rule it out.
-/

namespace Hashgraph

abbrev Author := Nat

abbrev Hash := Nat

abbrev Sig := List Nat

abbrev Time := Nat

/-- Error variants of `error.rs` that the embedded operations can surface. -/
inductive Error where
  | invalidEvent
  | invalidSync
  | serde
  | other
deriving DecidableEq, Repr

/-- Association list lookup (Rust `HashMap::get` / sled `Tree::get`). -/
def alistGet {κ β : Type} [DecidableEq κ] (l : List (κ × β)) (k : κ) : Option β :=
  (l.find? (fun p => decide (p.1 = k))).map (·.2)

/-- Association list insert-or-overwrite (Rust `HashMap::insert` / sled
`Tree::insert`). -/
def alistPut {κ β : Type} [DecidableEq κ] (l : List (κ × β)) (k : κ) (v : β) :
    List (κ × β) :=
  (k, v) :: l.filter (fun p => !decide (p.1 = k))

/-- Association list removal (sled `Tree::remove`). -/
def alistDel {κ β : Type} [DecidableEq κ] (l : List (κ × β)) (k : κ) : List (κ × β) :=
  l.filter (fun p => !decide (p.1 = k))

/-- In-place update of one entry (Rust `get_mut` followed by a mutation). -/
def alistUpd {κ β : Type} [DecidableEq κ] (l : List (κ × β)) (k : κ) (f : β → β) :
    List (κ × β) :=
  l.map (fun p => if p.1 = k then (p.1, f p.2) else p)

/-- `event.rs` `UnsignedRawEvent`: payload, two optional parent hashes,
claimed time, author. -/
structure UnsignedRawEvent where
  payload : List Nat
  self_hash : Option Hash
  other_hash : Option Hash
  time : Time
  author : Author
deriving DecidableEq, Repr

/-- `event.rs` `RawEvent`: the unsigned data plus the author's signature. -/
structure RawEvent where
  event : UnsignedRawEvent
  signature : Sig
deriving DecidableEq, Repr

/-- The declared parent hashes in order: self-hash first, then other-hash. -/
def UnsignedRawEvent.parentHashes (u : UnsignedRawEvent) : List Hash :=
  (match u.self_hash with | some h => [h] | none => []) ++
  (match u.other_hash with | some h => [h] | none => [])

/-- `event.rs` `Event`: a raw event plus derived fields, all initially absent. -/
structure Event where
  raw : RawEvent
  hash : Hash
  seq : Nat
  parents : List Hash
  children : List Hash
  round_created : Option Nat
  witness : Option Bool
  votes : List (Hash × Bool)
  famous : Option Bool
  round_received : Option Nat
  time_received : Option Time
  whitened_signature : Option Sig
deriving DecidableEq, Repr

/-- `Event::new`: parents are self-hash then other-hash, derived fields empty. -/
def Event.new (raw : RawEvent) (hash : Hash) (seq : Nat) : Event :=
  { raw := raw
    hash := hash
    seq := seq
    parents := raw.event.parentHashes
    children := []
    round_created := none
    witness := none
    votes := []
    famous := none
    round_received := none
    time_received := none
    whitened_signature := none }

def Event.author (e : Event) : Author := e.raw.event.author

def Event.time (e : Event) : Time := e.raw.event.time

def Event.signature (e : Event) : Sig := e.raw.signature

/-- `graph.rs` `Graph`: per-author high-water seq, events keyed by hash, and
the most recently inserted hash. -/
structure Graph where
  state : List (Author × Nat)
  events : List (Hash × Event)
  root : Option Hash
deriving DecidableEq, Repr

def Graph.empty : Graph := { state := [], events := [], root := none }

/-- `Graph::event`. -/
def Graph.event (g : Graph) (h : Hash) : Option Event :=
  alistGet g.events h

/-- `Graph::parents`: parent hashes resolved in the graph (absent ones dropped,
as Rust's `filter_map`). -/
def Graph.parentsOf (g : Graph) (e : Event) : List Event :=
  e.parents.filterMap g.event

/-- `Graph::self_parent`. -/
def Graph.selfParentOf (g : Graph) (e : Event) : Option Event :=
  match e.raw.event.self_hash with
  | some h => g.event h
  | none => none

/-- `Graph::children`. -/
def Graph.childrenOf (g : Graph) (e : Event) : List Event :=
  e.children.filterMap g.event

/-- One step of `AncestorIter::next`: pop the top of the stack, mark it
visited, push its unvisited parents (self parent first, so the other parent
is explored first), and yield the popped event.  The head of `stack` is the
top.  `fuel` bounds the iteration; the Rust iterator terminates because
pushes require the pushed node to be unvisited. -/
def ancestorsAux (g : Graph) : Nat → List Event → List Hash → List Event
  | 0, _, _ => []
  | _ + 1, [], _ => []
  | fuel + 1, e :: stack, visited =>
    let visited' := e.hash :: visited
    let push := (g.parentsOf e).filter (fun p => !(visited'.contains p.hash))
    e :: ancestorsAux g fuel (push.reverse ++ stack) visited'

/-- Canonical fuel: a generous bound on the iterations any of the DFS loops
below take on the graphs of this development. -/
def Graph.fuel (g : Graph) : Nat :=
  (g.events.length + 1) * (g.events.length + 1)

/-- `Graph::ancestors`: the event itself, then its ancestors in DFS order
(duplicates possible, exactly as the Rust iterator can yield them). -/
def Graph.ancestors (g : Graph) (e : Event) : List Event :=
  ancestorsAux g g.fuel [e] []

/-- `DecendantIter`, symmetric to the ancestor iterator over children. -/
def decendantsAux (g : Graph) : Nat → List Event → List Hash → List Event
  | 0, _, _ => []
  | _ + 1, [], _ => []
  | fuel + 1, e :: stack, visited =>
    let visited' := e.hash :: visited
    let push := (g.childrenOf e).filter (fun p => !(visited'.contains p.hash))
    e :: decendantsAux g fuel (push.reverse ++ stack) visited'

/-- `Graph::decendants` (spelling as in the source). -/
def Graph.decendants (g : Graph) (e : Event) : List Event :=
  decendantsAux g g.fuel [e] []

/-- `SelfAncestorIter`: the linear self-parent chain starting at the event. -/
def selfAncestorsAux (g : Graph) : Nat → Option Event → List Event
  | 0, _ => []
  | _ + 1, none => []
  | fuel + 1, some e => e :: selfAncestorsAux g fuel (g.selfParentOf e)

def Graph.selfAncestors (g : Graph) (e : Event) : List Event :=
  selfAncestorsAux g (g.events.length + 1) (some e)

/-- `Graph::ancestor`: x reaches y through 0 or more parent edges. -/
def Graph.ancestor (g : Graph) (x y : Event) : Bool :=
  (g.ancestors x).any (fun e => e.hash == y.hash)

/-- `Graph::self_ancestor`. -/
def Graph.selfAncestor (g : Graph) (x y : Event) : Bool :=
  (g.selfAncestors x).any (fun e => e.hash == y.hash)

/-- The pairwise fork check inside `Graph::see`: every two collected events
by y's author must be on one self-ancestor chain. -/
def seePairsOk (g : Graph) : List Event → Bool
  | [] => true
  | a :: rest =>
    rest.all (fun b => g.selfAncestor a b || g.selfAncestor b a) && seePairsOk g rest

/-- `Graph::see`: y is an ancestor of x and no fork of y (two events by y's
author not on one self-ancestor chain) is visible from x.  The source
unwraps the two lookups; a missing event is collapsed to `false`. -/
def Graph.see (g : Graph) (x y : Hash) : Bool :=
  match g.event x, g.event y with
  | some xe, some ye =>
    let ancs := g.ancestors xe
    let isAncestor := ancs.any (fun e => e.hash == ye.hash)
    let created := ancs.filter (fun e => e.author == ye.author)
    if !isAncestor then false
    else seePairsOk g created
  | _, _ => false

/-- Minimum of the seqs of a list of events, `none` when empty. -/
def minSeq (l : List Event) : Option Nat :=
  l.foldr (fun e acc =>
    match acc with
    | none => some e.seq
    | some m => some (min e.seq m)) none

/-- Maximum of the seqs of a list of events, `none` when empty. -/
def maxSeq (l : List Event) : Option Nat :=
  l.foldr (fun e acc =>
    match acc with
    | none => some e.seq
    | some m => some (max e.seq m)) none

/-- The closure `strongly_see` filters with: both seqs exist and the
x-side maximum is at least the y-side minimum. -/
def seqPairOk : Option Nat → Option Nat → Bool
  | some ymin, some xmax => decide (ymin ≤ xmax)
  | _, _ => false

/-- `Graph::strongly_see`: for each author zip the min seq of a descendant
of y with the max seq of an ancestor of x, count the authors where
`max ≥ min`, and require `count ≥ n - n/3`.  The source unwraps the two
event lookups; a missing event is collapsed to `false`. -/
def Graph.strongly_see (g : Graph) (x y : Hash) (authors : List Author) : Bool :=
  match g.event x, g.event y with
  | some xe, some ye =>
    let ymins := authors.map (fun a => minSeq ((g.decendants ye).filter (fun e => e.author == a)))
    let xmaxs := authors.map (fun a => maxSeq ((g.ancestors xe).filter (fun e => e.author == a)))
    let number_of_authors_see :=
      ((ymins.zip xmaxs).filter (fun p => seqPairOk p.1 p.2)).length
    authors.length - authors.length / 3 ≤ number_of_authors_see
  | _, _ => false

/-- Tail of `Graph::add_event` after both parent checks: recompute the hash,
verify the signature, then perform the mutations (register children, insert
the event, bump the author's seq, set the root). -/
def Graph.addEventChecked (hashFn : UnsignedRawEvent → Except Error Hash)
    (verify : Author → Hash → Sig → Except Error Unit)
    (g : Graph) (ev : RawEvent) (seq : Nat) : Except Error Hash × Graph :=
  match hashFn ev.event with
  | .error err => (.error err, g)
  | .ok hash =>
    match verify ev.event.author hash ev.signature with
    | .error err => (.error err, g)
    | .ok () =>
      let e := Event.new ev hash seq
      let events :=
        e.parents.foldl
          (fun m p => alistUpd m p (fun pe => { pe with children := pe.children ++ [hash] }))
          g.events
      (.ok hash,
        { state := alistPut g.state ev.event.author seq
          events := alistPut events hash e
          root := some hash })

/-- Tail of `Graph::add_event` after the seq computation: check that a
declared other-parent is present. -/
def Graph.addEventWithSeq (hashFn : UnsignedRawEvent → Except Error Hash)
    (verify : Author → Hash → Sig → Except Error Unit)
    (g : Graph) (ev : RawEvent) (seq : Nat) : Except Error Hash × Graph :=
  match ev.event.other_hash with
  | some parent =>
    match g.event parent with
    | none => (.error .invalidEvent, g)
    | some _ => Graph.addEventChecked hashFn verify g ev seq
  | none => Graph.addEventChecked hashFn verify g ev seq

/-- `Graph::add_event`.  `hashFn` recomputes the event hash (the source's
`UnsignedRawEvent::hash`, which can fail on serialization), `verify` checks
the signature.  Returns the result together with the (possibly updated)
graph; every error path leaves the graph exactly as it was, mirroring the
source's early returns before any mutation. -/
def Graph.add_event (hashFn : UnsignedRawEvent → Except Error Hash)
    (verify : Author → Hash → Sig → Except Error Unit)
    (g : Graph) (ev : RawEvent) : Except Error Hash × Graph :=
  match ev.event.self_hash with
  | some parent =>
    match g.event parent with
    | none => (.error .invalidEvent, g)
    | some pe => Graph.addEventWithSeq hashFn verify g ev (pe.seq + 1)
  | none => Graph.addEventWithSeq hashFn verify g ev 1

/-- `Graph::sync_state`: per author in order, the last seq held (or absent). -/
def Graph.sync_state (g : Graph) (authors : List Author) : List (Option Nat) :=
  authors.map (fun a => alistGet g.state a)

/-- The seq the peer records for an author, absent authors counting as 0
(Rust `state.get(author).cloned().unwrap_or(0)`). -/
def peerSeq (state : List (Author × Nat)) (a : Author) : Nat :=
  (alistGet state a).getD 0

/-- One iteration of the `Graph::sync` DFS loop.  The head of `stack` is the
top; `black` holds finished hashes; `post` accumulates the post-order
output.  An event already black is skipped; an event the peer already has
(seq ≤ peer's seq for its author) is blackened without being emitted;
otherwise the event is emitted once all its (present) parents are black,
and is re-pushed below its non-black parents until then. -/
def syncLoop (g : Graph) (state : List (Author × Nat)) :
    Nat → List Event → List Hash → List Event → List Event
  | 0, _, _, post => post
  | _ + 1, [], _, post => post
  | fuel + 1, e :: stack, black, post =>
    if black.contains e.hash then
      syncLoop g state fuel stack black post
    else if e.seq ≤ peerSeq state e.author then
      syncLoop g state fuel stack (e.hash :: black) post
    else
      let gray := (g.parentsOf e).filter (fun p => !(black.contains p.hash))
      if gray.isEmpty then
        syncLoop g state fuel stack (e.hash :: black) (post ++ [e])
      else
        syncLoop g state fuel (gray.reverse ++ e :: stack) black post

/-- `Graph::sync`, as the list of emitted events (the source emits
`&RawEvent`; see `Graph.sync`). -/
def Graph.syncEvents (g : Graph) (state : List (Author × Nat)) : List Event :=
  match g.root with
  | none => syncLoop g state g.fuel [] [] []
  | some root =>
    match g.event root with
    | none => syncLoop g state g.fuel [] [] []   -- source unwraps; root is present in well-formed graphs
    | some re => syncLoop g state g.fuel [re] [] []

/-- `Graph::sync`: the post-order stream of raw events missing from the peer. -/
def Graph.sync (g : Graph) (state : List (Author × Nat)) : List RawEvent :=
  (g.syncEvents state).map (·.raw)

/-- `vote.rs` `FREQ_COIN_ROUNDS`. -/
def FREQ_COIN_ROUNDS : Nat := 10

/-- `vote.rs` `Round`. -/
structure Round where
  round : Nat
  block : Nat
  authors : List Author
  freq_coin_rounds : Nat
  witnesses : List Hash
  decided : Bool
  unique_famous_witnesses : List Hash
deriving DecidableEq, Repr

/-- `Round::new`. -/
def Round.new (round block : Nat) (authors : List Author) : Round :=
  { round := round
    block := block
    authors := authors
    freq_coin_rounds := FREQ_COIN_ROUNDS
    witnesses := []
    decided := false
    unique_famous_witnesses := [] }

def Round.population (r : Round) : Nat := r.authors.length

/-- `Round::threshold`: `2 * population / 3` with integer division. -/
def Round.threshold (r : Round) : Nat := 2 * r.population / 3

/-- `Round::decide_round`: mark the round decided and compute the unique
famous witnesses, skipping every witness whose author contributed more than
one witness to this round.  (The source counts witnesses per author in a
map and skips authors with count > 1; it does not consult `famous`.) -/
def Round.decide_round (r : Round) (g : Graph) : Round :=
  let authorOf : Hash → Author := fun w => ((g.event w).map Event.author).getD 0
  let counts : List (Author × Nat) :=
    r.witnesses.foldl
      (fun m w => alistPut m (authorOf w) ((alistGet m (authorOf w)).getD 0 + 1)) []
  let ufw := r.witnesses.filter (fun w => (alistGet counts (authorOf w)).getD 0 ≤ 1)
  { r with decided := true, unique_famous_witnesses := r.unique_famous_witnesses ++ ufw }

/-- `vote.rs` `Voter`. -/
structure Voter where
  graph : Graph
  rounds : List Round
deriving DecidableEq, Repr

def Voter.empty : Voter := { graph := Graph.empty, rounds := [] }

/-- `Voter::round`: look a round up by its number. -/
def Voter.round (v : Voter) (round : Nat) : Option Round :=
  v.rounds.find? (fun r => r.round == round)

/-- `Voter::add_event`: insert into the graph, assign the created round
(advancing past the max parent round when the event strongly sees more than
`threshold` of that round's witnesses), mark witnesses, and record a
witness in its round (creating the round from `startRound` — the author
chain's `start_round()` — when it does not exist yet). -/
def Voter.add_event (hashFn : UnsignedRawEvent → Except Error Hash)
    (verify : Author → Hash → Sig → Except Error Unit)
    (v : Voter) (ev : RawEvent) (startRound : Except Error (Nat × List Author)) :
    Except Error Hash × Voter :=
  let parent := ev.event.self_hash
  let other_parent := ev.event.other_hash
  match Graph.add_event hashFn verify v.graph ev with
  | (.error err, _) => (.error err, v)
  | (.ok hash, graph) =>
    -- the source unwraps the lookups; parents were checked present and carry a round
    let parent_round_num :=
      ((parent.bind graph.event).bind (·.round_created)).getD 0
    let other_parent_round_num :=
      ((other_parent.bind graph.event).bind (·.round_created)).getD 0
    let max_parent_round_num := max parent_round_num other_parent_round_num
    let parent_round := v.round max_parent_round_num
    let next_round :=
      match parent_round with
      | some r =>
        decide (r.threshold <
          ((r.witnesses.filter (fun w => graph.strongly_see hash w r.authors)).length))
      | none => true
    let round_num := if next_round then max_parent_round_num + 1 else max_parent_round_num
    let is_witness := decide (parent_round_num < round_num)
    let roundsResult : Except Error (List Round) :=
      if is_witness then
        if (v.rounds.find? (fun r => r.round == round_num)).isSome then
          .ok (v.rounds.map (fun r =>
            if r.round == round_num then { r with witnesses := r.witnesses ++ [hash] } else r))
        else
          match startRound with
          | .error err => .error err
          | .ok (block, authors) =>
            let round := Round.new round_num block authors
            .ok (v.rounds ++ [{ round with witnesses := round.witnesses ++ [hash] }])
      else .ok v.rounds
    match roundsResult with
    | .error err => (.error err, { v with graph := graph })
    | .ok rounds =>
      let graph := { graph with
        events := alistUpd graph.events hash
          (fun e => { e with round_created := some round_num, witness := some is_witness }) }
      (.ok hash, { graph := graph, rounds := rounds })

/-- `vote.rs` `WitnessIter`: all witnesses of `rounds[1..]` in round order,
each with its round and its slice index (`diff`). -/
def witnessIter (rounds : List Round) : List (Hash × Round × Nat) :=
  (rounds.enum.drop 1).flatMap (fun p => p.2.witnesses.map (fun w => (w, p.2, p.1)))

/-- The vote a `diff > 1` voter casts in `decide_fame`, and whether it
decides the witness's fame: majority of the collected prior votes (a tie
counts yes), `num = max(yes, no)`; the coin (`signature[32] & 1`) is used
when `num ≤ threshold && diff % freq_coin_rounds > 0`; fame is decided
whenever `num > threshold`. -/
def fameVote (votes : List Bool) (threshold diff freq : Nat) (coin : Bool) :
    Bool × Bool :=
  let num_votes := votes.length
  let yes_votes := votes.count true
  let no_votes := num_votes - yes_votes
  let vote := decide (no_votes ≤ yes_votes)
  let num := max yes_votes no_votes
  let vote := if num ≤ threshold && decide (0 < diff % freq) then coin else vote
  (vote, decide (threshold < num))

/-- Record `voter.votes[witness] = vote` in the graph. -/
def Graph.insertVote (g : Graph) (voter witness : Hash) (vote : Bool) : Graph :=
  { g with events :=
      alistUpd g.events voter (fun e => { e with votes := alistPut e.votes witness vote }) }

/-- Record `witness.famous = vote` in the graph. -/
def Graph.setFamous (g : Graph) (witness : Hash) (vote : Bool) : Graph :=
  { g with events := alistUpd g.events witness (fun e => { e with famous := some vote }) }

/-- The body of the voter loop in `decide_fame` for one (witness, voter)
pair: a `diff = 1` voter votes `see(voter, witness)`; a later voter
collects the prior votes of the round-`(voter.round - 1)` witnesses it
strongly sees and follows `fameVote`, setting `famous` when it decides. -/
def Voter.fameStep (v : Voter) (threshold : Nat) (witness : Hash)
    (acc : Graph × Nat) (vrd : Hash × Round × Nat) : Graph × Nat :=
  let g := acc.1
  let num := acc.2
  let voter := vrd.1
  let vround := vrd.2.1
  let diff := vrd.2.2
  if diff = 1 then
    (g.insertVote voter witness (g.see voter witness), num)
  else
    match v.rounds.find? (fun r => r.round == vround.round - 1) with
    | none => (g, num)   -- source unwraps; the parent round exists whenever reached
    | some parent_round =>
      let strongly_seen :=
        parent_round.witnesses.filter (fun w => g.strongly_see voter w parent_round.authors)
      let votes :=
        strongly_seen.filterMap (fun w => (g.event w).bind (fun e => alistGet e.votes witness))
      let coin := ((g.event voter).map (fun e => e.signature.getD 32 0 % 2 == 1)).getD false
      let r := fameVote votes threshold diff vround.freq_coin_rounds coin
      let g := g.insertVote voter witness r.1
      if r.2 then (g.setFamous witness r.1, num + 1) else (g, num)

/-- `Voter::decide_fame` on `rounds[i]`: for every witness not yet decided,
run every later witness as a voter; return whether the number of decisions
(witnesses already famous count one, and a witness decided by several
voters counts once per deciding voter) reaches the round's author count. -/
def Voter.decide_fame (v : Voter) (i : Nat) : Voter × Bool :=
  match v.rounds.get? i with
  | none => (v, false)   -- the caller only passes i < rounds.len
  | some round =>
    let threshold := round.threshold
    let voters := witnessIter (v.rounds.drop i)
    let res :=
      round.witnesses.foldl
        (fun acc witness =>
          if (((acc.1.event witness).bind (·.famous)).isSome) then (acc.1, acc.2 + 1)
          else voters.foldl (v.fameStep threshold witness) acc)
        (v.graph, 0)
    ({ v with graph := res.1 }, decide (round.authors.length ≤ res.2))

/-- First-occurrence deduplication of events by hash. -/
def dedupByHash : List Hash → List Event → List Event
  | _, [] => []
  | seen, e :: rest =>
    if seen.contains e.hash then dedupByHash seen rest
    else e :: dedupByHash (e.hash :: seen) rest

/-- Modelled from the spec: `Graph::shared_ancestors` is called by
`process_rounds` but missing from the source snapshot.  Per §4.E an event
is finalized in a decided round exactly when every unique famous witness
of that round is a descendant of it, so the shared ancestors of the root
set are the events every root reaches: the ancestors of the first root
that are ancestors of all roots. -/
def Graph.sharedAncestors (g : Graph) (roots : List Event) : List Event :=
  match roots with
  | [] => []
  | r0 :: _ =>
    (dedupByHash [] (g.ancestors r0)).filter (fun e => roots.all (fun r => g.ancestor r e))

/-- Bytewise xor of two signatures (`vote.rs` `xor` on `[u8; 64]`). -/
def xorSig (x y : Sig) : Sig := List.zipWith Nat.xor x y

/-- Lexicographic comparison of byte strings (Rust's array `Ord`). -/
def listCompare : List Nat → List Nat → Ordering
  | [], [] => .eq
  | [], _ :: _ => .lt
  | _ :: _, [] => .gt
  | x :: xs, y :: ys =>
    match compare x y with
    | .eq => listCompare xs ys
    | o => o

/-- `PartialOrd for Event` (`event.rs`): compare `round_received`, then
`time_received`, then `whitened_signature`; `none` when a needed pair of
fields is not set on both sides. -/
def Event.partialCmp (a b : Event) : Option Ordering :=
  match a.round_received, b.round_received with
  | some rr1, some rr2 =>
    if rr1 ≠ rr2 then some (compare rr1 rr2)
    else
      match a.time_received, b.time_received with
      | some tr1, some tr2 =>
        if tr1 ≠ tr2 then some (compare tr1 tr2)
        else
          match a.whitened_signature, b.whitened_signature with
          | some w1, some w2 => some (listCompare w1 w2)
          | _, _ => none
      | _, _ => none
  | _, _ => none

/-- The sort key `(round_received, time_received, whitened_signature)`.
`Ord for Event` unwraps `partialCmp`; on events whose fields are all set —
the only events the source ever sorts — comparing these keys agrees with
it (`sortLe_iff_partialCmp` below), and the defaults stand in for the
panic path. -/
def Event.sortKey (e : Event) : Nat × Nat × List Nat :=
  (e.round_received.getD 0, e.time_received.getD 0, e.whitened_signature.getD [])

/-- Comparison of sort keys. -/
def keyCompare (k1 k2 : Nat × Nat × List Nat) : Ordering :=
  match compare k1.1 k2.1 with
  | .eq =>
    match compare k1.2.1 k2.2.1 with
    | .eq => listCompare k1.2.2 k2.2.2
    | o => o
  | o => o

/-- The comparator `events.sort()` sorts by. -/
def Event.sortLe (a b : Event) : Bool :=
  decide (keyCompare a.sortKey b.sortKey ≠ .gt)

/-- The per-event commit work inside `process_rounds` once a round is
decided: consensus timestamp (median over the unique famous witnesses of
the first self-ancestor that reaches the event while its self-parent does
not), whitened signature, and `round_received`. -/
def commitEvent (round_i : Round) (whitener : Sig) (g : Graph) (h : Hash) : Graph :=
  match g.event h with
  | none => g   -- source unwraps; commit hashes are present
  | some e =>
    let timestamps :=
      round_i.unique_famous_witnesses.filterMap (fun wh =>
        match g.event wh with
        | none => none   -- source unwraps
        | some w =>
          ((g.selfAncestors w).find? (fun anc =>
            g.ancestor anc e &&
              (((anc.raw.event.self_hash.bind g.event).map
                (fun na => !(g.ancestor na e))).getD true))).map Event.time)
    let sorted := timestamps.insertionSort (· ≤ ·)
    let time_received := sorted.getD (sorted.length / 2) 0   -- empty only on a panic path
    let whitened := xorSig whitener e.signature
    { g with events :=
        alistUpd g.events h (fun e' =>
          { e' with
            round_received := some round_i.round
            time_received := some time_received
            whitened_signature := some whitened }) }

/-- The round loop of `Voter::process_rounds`: skip decided rounds, stop at
the first round whose fame cannot be decided, and for every newly decided
round mark it, compute its unique famous witnesses, and commit the shared
ancestors not yet received. -/
def Voter.processRoundsLoop : Voter → Nat → Nat → List Hash → Voter × List Hash
  | v, 0, _, commit => (v, commit)
  | v, fuel + 1, i, commit =>
    match v.rounds.get? i with
    | none => (v, commit)
    | some round =>
      if round.decided then Voter.processRoundsLoop v fuel (i + 1) commit
      else
        let p := v.decide_fame i
        if p.2 then
          let v := p.1
          let round' := ((v.rounds.get? i).getD round).decide_round v.graph
          let v : Voter := { v with rounds := v.rounds.set i round' }
          let roots := round'.unique_famous_witnesses.filterMap v.graph.event
          let hashes :=
            ((v.graph.sharedAncestors roots).filter (fun e => e.round_received.isNone)).map
              (·.hash)
          let whitener :=
            match roots with
            | [] => []   -- source indexes roots[0]; empty roots is a panic path
            | r0 :: rest => rest.foldl (fun acc r => xorSig acc r.signature) r0.signature
          let g := hashes.foldl (commitEvent round' whitener) v.graph
          Voter.processRoundsLoop { v with graph := g } fuel (i + 1) (commit ++ hashes)
        else (p.1, commit)

/-- The commit-collection phase of `Voter::process_rounds` (everything
before the final sort). -/
def Voter.commitPhase (v : Voter) : Voter × List Hash :=
  Voter.processRoundsLoop v (v.rounds.length + 1) 0 []

/-- The propositional form of the sort comparator (`events.sort()` sorts
by `Ord for Event`; the insertion sort below computes the same list as any
stable sort by this comparator). -/
def eventLe (a b : Event) : Prop := Event.sortLe a b = true

instance : DecidableRel eventLe :=
  fun a b => inferInstanceAs (Decidable (Event.sortLe a b = true))

/-- `Voter::process_rounds`: collect the newly finalized hashes, then sort
their events with `Ord for Event` and return the hashes in that order. -/
def Voter.process_rounds (v : Voter) : Voter × List Hash :=
  let p := v.commitPhase
  (p.1, (((p.2.filterMap p.1.graph.event).insertionSort eventLe).map (·.hash)))

/-! ### Concrete instantiations

The crypto parameters for concrete runs: `timeHash` is an injective
stand-in for the digest (all concrete events carry distinct times) and
`okVerify` accepts every signature. -/

def timeHash : UnsignedRawEvent → Except Error Hash := fun e => .ok e.time

def okVerify : Author → Hash → Sig → Except Error Unit := fun _ _ _ => .ok ()

/-- A raw event with the given author, time, self- and other-parent, a
64-byte signature filled with the time byte, and an empty payload. -/
def mkRaw (author time : Nat) (sh oh : Option Hash) : RawEvent :=
  { event :=
      { payload := [], self_hash := sh, other_hash := oh, time := time, author := author }
    signature := List.replicate 64 time }

/-- Add to a voter with the concrete crypto parameters and committee
`{0, 1}` at block 1. -/
def addV (v : Voter) (r : RawEvent) : Voter :=
  (Voter.add_event timeHash okVerify v r (.ok (1, [0, 1]))).2

/-- Add to a bare graph with the concrete crypto parameters. -/
def addG (g : Graph) (r : RawEvent) : Graph :=
  (Graph.add_event timeHash okVerify g r).2

/-- Two authors 0 and 1 alternate for eight events (each referencing the
other's latest), reaching created rounds 1–4; then `process_rounds`
decides rounds 1 and 2; then author 2 joins late with an event whose
other-parent is the very first event, which lands as a fresh witness in
the long-decided round 1. -/
def ev1 : RawEvent := mkRaw 0 1 none none

def ev2 : RawEvent := mkRaw 1 2 none (some 1)

def ev3 : RawEvent := mkRaw 0 3 (some 1) (some 2)

def ev4 : RawEvent := mkRaw 1 4 (some 2) (some 3)

def ev5 : RawEvent := mkRaw 0 5 (some 3) (some 4)

def ev6 : RawEvent := mkRaw 1 6 (some 4) (some 5)

def ev7 : RawEvent := mkRaw 0 7 (some 5) (some 6)

def ev8 : RawEvent := mkRaw 1 8 (some 6) (some 7)

def ev9 : RawEvent := mkRaw 2 9 none (some 1)

/-- The voter state after the eight two-author events. -/
def voterEight : Voter :=
  addV (addV (addV (addV (addV (addV (addV (addV Voter.empty ev1) ev2) ev3) ev4) ev5) ev6) ev7) ev8

/-- `process_rounds` on `voterEight`: decides rounds 1 and 2 and commits
three events. -/
def voterEightRun : Voter × List Hash := voterEight.process_rounds

/-- The late third-author event added after rounds 1 and 2 were decided. -/
def voterNine : Voter := addV voterEightRun.1 ev9

/-- Two events by two of three authors: author 0's genesis and author 1's
first event referencing it.  Exactly 2 of the 3 committee authors bridge
event 2 to event 1. -/
def graphTwo : Graph := addG (addG Graph.empty ev1) ev2

/-- A fork: author 0's genesis (hash 1) and two distinct events (hashes 2
and 3) both declaring it as self-parent. -/
def fork1 : RawEvent := mkRaw 0 1 none none

def fork2 : RawEvent := mkRaw 0 2 (some 1) none

def fork3 : RawEvent := mkRaw 0 3 (some 1) none

def graphFork : Graph := addG (addG (addG Graph.empty fork1) fork2) fork3

/-- Two unrelated genesis events by different authors; the root is the
second insertion, whose ancestor cone misses the first event. -/
def solo2 : RawEvent := mkRaw 1 2 none none

def graphSolo : Graph := addG (addG Graph.empty ev1) solo2

/-! ### ACL state machine (`state/acl.rs`) -/

/-- A value stored in the sled tree: either a bincode-serialized author
list (at a bare prefix key) or raw bytes (at an encoded KV key).
Serialization is modelled as the identity on these two shapes; reading an
author list from a `bytes` entry is the deserialization failure. -/
inductive TreeVal where
  | authors (l : List Author)
  | bytes (v : List Nat)
deriving DecidableEq, Repr

/-- Modelled from the spec: `state/key.rs` is missing from the snapshot.
§3: a key is the length-prefixed prefix followed by the key proper, with
the prefix at most 255 bytes. -/
structure Key where
  pfx : List Nat
  name : List Nat
deriving DecidableEq, Repr

/-- Modelled from the spec: the byte encoding `len(prefix) ∥ prefix ∥ key`
under which a KV entry is stored (distinct from the bare prefix that keys
the ACL author list). -/
def Key.encode (k : Key) : List Nat :=
  [k.pfx.length] ++ k.pfx ++ k.name

/-- `state/transaction.rs` `TransactionError` (the variants the ACL uses). -/
inductive TransactionError where
  | permission
  | compareAndSwap (current proposed : Option TreeVal)
deriving DecidableEq, Repr

/-- The ACL tree. -/
structure Acl where
  tree : List (List Nat × TreeVal)
deriving DecidableEq, Repr

/-- Read and deserialize the author list stored at a prefix: absent means
the empty list; a raw-bytes entry is a deserialization error. -/
def Acl.authorsAt (acl : Acl) (pfx : List Nat) : Except Error (List Author) :=
  match alistGet acl.tree pfx with
  | some (.authors l) => .ok l
  | some (.bytes _) => .error .serde
  | none => .ok []

/-- `Acl::add_author_to_prefix` (named with `pfx` here): an empty list lets
any author claim the prefix; a non-empty list requires membership of the
committing author and is left alone when the new author is already
present. -/
def Acl.add_author_to_pfx (acl : Acl) (author : Author) (pfx : List Nat) (new : Author) :
    Except Error (Except TransactionError Unit) × Acl :=
  match acl.authorsAt pfx with
  | .error e => (.error e, acl)
  | .ok authors =>
    if authors ≠ [] ∧ ¬ authors.contains author then
      (.ok (.error .permission), acl)
    else if authors ≠ [] ∧ authors.contains new then
      (.ok (.ok ()), acl)
    else
      (.ok (.ok ()), { tree := alistPut acl.tree pfx (.authors (authors ++ [new])) })

/-- `Acl::remove_author_from_prefix` (named with `pfx` here). -/
def Acl.remove_author_from_pfx (acl : Acl) (author : Author) (pfx : List Nat) (rm : Author) :
    Except Error (Except TransactionError Unit) × Acl :=
  match acl.authorsAt pfx with
  | .error e => (.error e, acl)
  | .ok authors =>
    let new_authors := authors.filter (fun a => !(a == rm))
    if ¬ authors.contains author then
      (.ok (.error .permission), acl)
    else if ¬ authors.contains rm then
      (.ok (.ok ()), acl)
    else if new_authors.isEmpty then
      (.ok (.ok ()), { tree := alistDel acl.tree pfx })
    else
      (.ok (.ok ()), { tree := alistPut acl.tree pfx (.authors new_authors) })

/-- `Acl::insert`: permission check via `add_author_to_pfx` (the first
writer to an unowned prefix becomes its owner), then store the value. -/
def Acl.insert (acl : Acl) (author : Author) (key : Key) (value : List Nat) :
    Except Error (Except TransactionError Unit) × Acl :=
  match acl.add_author_to_pfx author key.pfx author with
  | (.error e, acl') => (.error e, acl')
  | (.ok (.error terr), acl') => (.ok (.error terr), acl')
  | (.ok (.ok ()), acl') =>
    (.ok (.ok ()), { tree := alistPut acl'.tree key.encode (.bytes value) })

/-- `Acl::remove`. -/
def Acl.remove (acl : Acl) (author : Author) (key : Key) :
    Except Error (Except TransactionError Unit) × Acl :=
  match acl.add_author_to_pfx author key.pfx author with
  | (.error e, acl') => (.error e, acl')
  | (.ok (.error terr), acl') => (.ok (.error terr), acl')
  | (.ok (.ok ()), acl') =>
    (.ok (.ok ()), { tree := alistDel acl'.tree key.encode })

/-- `Acl::compare_and_swap`: permission check, then sled's compare-and-swap
on the stored entry. -/
def Acl.compare_and_swap (acl : Acl) (author : Author) (key : Key)
    (old new : Option (List Nat)) :
    Except Error (Except TransactionError Unit) × Acl :=
  match acl.add_author_to_pfx author key.pfx author with
  | (.error e, acl') => (.error e, acl')
  | (.ok (.error terr), acl') => (.ok (.error terr), acl')
  | (.ok (.ok ()), acl') =>
    let current := alistGet acl'.tree key.encode
    if current == old.map TreeVal.bytes then
      match new with
      | some v => (.ok (.ok ()), { tree := alistPut acl'.tree key.encode (.bytes v) })
      | none => (.ok (.ok ()), { tree := alistDel acl'.tree key.encode })
    else
      (.ok (.error (.compareAndSwap current (new.map TreeVal.bytes))), acl')

/-! ### Signature accumulators (`state/chain.rs`, `state/checkpoint.rs`) -/

/-- `state/chain.rs` `Block`. -/
structure Block where
  parent : Hash
  authors : List Author
deriving DecidableEq, Repr

/-- `state/chain.rs` `ProposedBlock`. -/
structure ProposedBlock where
  block : Block
  hash : Hash
  signees : List Author
  signatures : List Sig
deriving DecidableEq, Repr

/-- `ProposedBlock::new` with the block hash supplied by the digest
parameter. -/
def ProposedBlock.new (hashFn : Block → Hash) (block : Block) : ProposedBlock :=
  { block := block, hash := hashFn block, signees := [], signatures := [] }

/-- `ProposedBlock::add_sig`: ignore an author who already signed, ignore a
signature that does not verify against the block hash, otherwise record
both. -/
def ProposedBlock.add_sig (verify : Author → Hash → Sig → Except Error Unit)
    (p : ProposedBlock) (author : Author) (sig : Sig) : ProposedBlock :=
  if p.signees.contains author then p
  else if ¬ (verify author p.hash sig).isOk then p
  else { p with signees := p.signees ++ [author], signatures := p.signatures ++ [sig] }

/-- `state/checkpoint.rs` `ProposedCheckpoint`. -/
structure ProposedCheckpoint where
  checkpoint : Hash
  signees : List Author
  signatures : List Sig
deriving DecidableEq, Repr

/-- `ProposedCheckpoint::new`. -/
def ProposedCheckpoint.new (checkpoint : Hash) : ProposedCheckpoint :=
  { checkpoint := checkpoint, signees := [], signatures := [] }

/-- `ProposedCheckpoint::add_sig`, identical logic against the checkpoint
hash. -/
def ProposedCheckpoint.add_sig (verify : Author → Hash → Sig → Except Error Unit)
    (p : ProposedCheckpoint) (author : Author) (sig : Sig) : ProposedCheckpoint :=
  if p.signees.contains author then p
  else if ¬ (verify author p.checkpoint sig).isOk then p
  else { p with signees := p.signees ++ [author], signatures := p.signatures ++ [sig] }

/-! ### Spec-side definitions

These follow the specification's words, to be compared with the
source-derived definitions above. -/

/-- The vote §4.E prescribes for a `diff > 1` voter: majority `maj`
(`yes ≥ no`) in a normal round (`diff mod freq_coin_rounds ≠ 0`); in a coin
round (`diff mod freq_coin_rounds = 0`) `maj` when `num > threshold` and
the coin bit otherwise. -/
def fameVoteSpec (votes : List Bool) (threshold diff freq : Nat) (coin : Bool) : Bool :=
  let yes := votes.count true
  let no := votes.length - yes
  let maj := decide (no ≤ yes)
  let num := max yes no
  if diff % freq ≠ 0 then maj
  else if threshold < num then maj else coin

/-- The spec's per-author quorum count for `strongly_see`: the number of
authors whose max seq of an ancestor of x is at least their min seq of a
descendant of y. -/
def authorsSeeCount (g : Graph) (x y : Hash) (authors : List Author) : Nat :=
  match g.event x, g.event y with
  | some xe, some ye =>
    authors.countP (fun a =>
      seqPairOk (minSeq ((g.decendants ye).filter (fun e => e.author == a)))
        (maxSeq ((g.ancestors xe).filter (fun e => e.author == a))))
  | _, _ => 0

/-- The claim's rejection condition for `add_event`: a declared parent is
absent, the hash cannot be recomputed, or signature verification of the
recomputed hash fails. -/
def addEventRejects (hashFn : UnsignedRawEvent → Except Error Hash)
    (verify : Author → Hash → Sig → Except Error Unit)
    (g : Graph) (ev : RawEvent) : Bool :=
  (match ev.event.self_hash with
   | some p => (g.event p).isNone
   | none => false) ||
  (match ev.event.other_hash with
   | some p => (g.event p).isNone
   | none => false) ||
  (match hashFn ev.event with
   | .error _ => true
   | .ok h => ¬ (verify ev.event.author h ev.signature).isOk)

/-- The number of distinct authors among `calls` that submitted a
signature verifying against `h`. -/
def validSignerCount (verify : Author → Hash → Sig → Except Error Unit)
    (h : Hash) (calls : List (Author × Sig)) : Nat :=
  (((calls.filter (fun c => (verify c.1 h c.2).isOk)).map Prod.fst).dedup).length

/-! ### Claim theorems -/

/-- C1 (code bug evaluation): with one yes-vote among the strongly seen
witnesses, threshold 1 and coin bit 0, the code's `decide_fame` vote
computation flips the coin at `diff = 2` — a normal round, where the claim
prescribes the majority vote `true` — and takes the majority at
`diff = 10` — the coin round, where the claim (with `num ≤ threshold`)
prescribes the coin bit `false`.  The code's coin-round test is inverted
(`diff % freq > 0` instead of `diff % freq = 0`). -/
theorem c1_fame_vote_diverges :
    fameVote [true] 1 2 10 false = (false, false) ∧
    fameVoteSpec [true] 1 2 10 false = true ∧
    fameVote [true] 1 10 10 false = (true, false) ∧
    fameVoteSpec [true] 1 10 10 false = false := by decide

/-- C2 (counterexample): in `graphTwo` with the three-author committee
`[0, 1, 2]`, `strongly_see` of event 2 over event 1 returns `true` while
only 2 authors bridge the pair, and `2 > 2·3/3` is false — the claimed
"more than 2n/3" reading (and with it the claimed equivalence of the two
quorum formulations) fails at n = 3. -/
theorem c2_quorum_counterexample :
    graphTwo.strongly_see 2 1 [0, 1, 2] = true ∧
    authorsSeeCount graphTwo 2 1 [0, 1, 2] = 2 ∧
    ¬ (2 * 3 / 3 < authorsSeeCount graphTwo 2 1 [0, 1, 2]) := by decide

/-- C3 (code bug evaluation): after the eight-event run decides round 1,
adding the late event of author 2 (hash 9) registers it as a new witness
of the decided round 1 with `famous` still unset — a reachable state in
which a decided round has a witness whose fame is not decided. -/
theorem c3_decided_round_undecided_witness :
    (voterNine.round 1).map Round.decided = some true ∧
    (voterNine.round 1).map (fun r => r.witnesses.contains 9) = some true ∧
    (voterNine.graph.event 9).map Event.famous = some none ∧
    (voterNine.graph.event 9).map Event.witness = some (some true) := by decide

/-- C4 (code bug evaluation): in the fork graph, `strongly_see` of event 3
over its fork sibling 2 (same author, same self-parent) holds for the full
one-author committee, yet `see(3, 2)` is false — 2 is not even an ancestor
of 3.  The seq-interval shortcut in `strongly_see` ignores actual
reachability under forks, contradicting its own doc comment. -/
theorem c4_strongly_see_not_see :
    graphFork.strongly_see 3 2 [0] = true ∧ graphFork.see 3 2 = false := by decide

/-- C6 (counterexample): `graphSolo` holds the unrelated genesis events 1
and 2 of authors 0 and 1 with root 2; against an empty peer state, event 1
is missing from the peer (its seq 1 exceeds the peer's 0) yet the sync
stream does not contain it — the stream covers only the root's ancestor
cone, not all missing events. -/
theorem c6_sync_misses_missing_event :
    (graphSolo.event 1).map (fun e => (e.raw, e.seq)) = some (ev1, 1) ∧
    peerSeq [] ev1.event.author = 0 ∧
    (graphSolo.sync []).contains ev1 = false ∧
    graphSolo.sync [] ≠ [] := by decide

/-- Filter-count over a zip of two maps of one list collapses to `countP`. -/
theorem length_filter_zip_map {α : Type} (p : Option Nat → Option Nat → Bool)
    (f g : α → Option Nat) (l : List α) :
    (((l.map f).zip (l.map g)).filter (fun q => p q.1 q.2)).length =
      l.countP (fun x => p (f x) (g x)) := by
  simp only [List.zip_map', List.filter_map, List.length_map,
    List.countP_eq_length_filter]
  rfl

/-- C2 (amended): for every graph, pair of stored events and author list,
`strongly_see(x, y, A)` returns true exactly when the number of authors
whose max ancestor-of-x seq reaches their min descendant-of-y seq is at
least `n - n/3` (integer division) — the code's quorum; the claim's
"more than 2n/3" formulation differs from it whenever 3 divides n. -/
theorem c2_strongly_see_iff (g : Graph) (x y : Hash) (authors : List Author)
    (xe ye : Event) (hx : g.event x = some xe) (hy : g.event y = some ye) :
    (g.strongly_see x y authors = true ↔
      authors.length - authors.length / 3 ≤ authorsSeeCount g x y authors) := by
  unfold Graph.strongly_see authorsSeeCount
  rw [hx, hy]
  simp only []
  rw [length_filter_zip_map seqPairOk
    (fun a => minSeq ((g.decendants ye).filter (fun e => e.author == a)))
    (fun a => maxSeq ((g.ancestors xe).filter (fun e => e.author == a)))
    authors]
  exact decide_eq_true_iff

/-- Closed instance of `c2_strongly_see_iff` at `graphTwo`. -/
theorem c2_strongly_see_iff_witness :
    (graphTwo.strongly_see 2 1 [0, 1, 2] = true ↔
      [0, 1, 2].length - [0, 1, 2].length / 3 ≤ authorsSeeCount graphTwo 2 1 [0, 1, 2]) :=
  c2_strongly_see_iff graphTwo 2 1 [0, 1, 2] _ _ rfl rfl

/-! ### Association list lemmas -/

theorem alistGet_cons {κ β : Type} [DecidableEq κ] (a : κ × β) (t : List (κ × β)) (k : κ) :
    alistGet (a :: t) k = if a.1 = k then some a.2 else alistGet t k := by
  by_cases h : a.1 = k
  · simp [alistGet, List.find?_cons, h]
  · simp [alistGet, List.find?_cons, h]

theorem alistGet_filter_ne {κ β : Type} [DecidableEq κ] (l : List (κ × β)) (k k' : κ) (h : k' ≠ k) :
    alistGet (l.filter (fun p => !decide (p.1 = k))) k' = alistGet l k' := by
  have hkk : k ≠ k' := fun hh => h hh.symm
  induction l with
  | nil => rfl
  | cons a t ih =>
    by_cases hak : a.1 = k
    · subst hak
      simp [List.filter_cons, alistGet_cons, hkk, ih]
    · by_cases hak' : a.1 = k'
      · simp [List.filter_cons, hak, alistGet_cons, hak', h]
      · simp [List.filter_cons, hak, alistGet_cons, hak', ih]

theorem alistGet_put_self {κ β : Type} [DecidableEq κ] (l : List (κ × β)) (k : κ) (v : β) :
    alistGet (alistPut l k v) k = some v := by
  simp [alistPut, alistGet_cons]

theorem alistGet_put_ne {κ β : Type} [DecidableEq κ] (l : List (κ × β)) (k k' : κ) (v : β)
    (h : k' ≠ k) : alistGet (alistPut l k v) k' = alistGet l k' := by
  have hkk : k ≠ k' := fun hh => h hh.symm
  simp [alistPut, alistGet_cons, hkk, alistGet_filter_ne l k k' h]

theorem alistUpd_cons {κ β : Type} [DecidableEq κ] (a : κ × β) (t : List (κ × β)) (k : κ) (f : β → β) :
    alistUpd (a :: t) k f =
      (if a.1 = k then (a.1, f a.2) else a) :: alistUpd t k f := by
  by_cases h : a.1 = k
  · simp [alistUpd, h]
  · simp [alistUpd, h]

theorem alistGet_upd_self {κ β : Type} [DecidableEq κ] (l : List (κ × β)) (k : κ) (f : β → β) :
    alistGet (alistUpd l k f) k = (alistGet l k).map f := by
  induction l with
  | nil => rfl
  | cons a t ih =>
    by_cases hak : a.1 = k
    · simp [alistUpd_cons, hak, alistGet_cons]
    · simp [alistUpd_cons, hak, alistGet_cons, ih]

theorem alistGet_upd_ne {κ β : Type} [DecidableEq κ] (l : List (κ × β)) (k k' : κ) (f : β → β)
    (h : k' ≠ k) : alistGet (alistUpd l k f) k' = alistGet l k' := by
  have hkk : k ≠ k' := fun hh => h hh.symm
  induction l with
  | nil => rfl
  | cons a t ih =>
    by_cases hak : a.1 = k
    · subst hak
      simp [alistUpd_cons, alistGet_cons, hkk, ih]
    · by_cases hak' : a.1 = k'
      · subst hak'
        simp [alistUpd_cons, hak, alistGet_cons, h]
      · simp [alistUpd_cons, hak, alistGet_cons, hak', ih]

theorem alistGet_upd_isSome {κ β : Type} [DecidableEq κ] (l : List (κ × β)) (k k' : κ) (f : β → β) :
    (alistGet (alistUpd l k f) k').isSome = (alistGet l k').isSome := by
  by_cases h : k' = k
  · subst h
    rw [alistGet_upd_self]
    cases alistGet l k' <;> rfl
  · rw [alistGet_upd_ne l k k' f h]

/-- The child-registration fold of `add_event` preserves an already
registered child. -/
theorem foldl_addChild_preserve (hash : Hash) (ps : List Hash)
    (events : List (Hash × Event)) (p : Hash)
    (h : ∃ pe, alistGet events p = some pe ∧ hash ∈ pe.children) :
    ∃ pe, alistGet
        (ps.foldl (fun m q => alistUpd m q
          (fun e => { e with children := e.children ++ [hash] })) events) p =
      some pe ∧ hash ∈ pe.children := by
  induction ps generalizing events with
  | nil => exact h
  | cons q rest ih =>
    apply ih
    obtain ⟨pe, hpe, hmem⟩ := h
    by_cases hpq : p = q
    · subst hpq
      refine ⟨{ pe with children := pe.children ++ [hash] }, ?_, ?_⟩
      · rw [alistGet_upd_self, hpe]
        rfl
      · exact List.mem_append_left _ hmem
    · exact ⟨pe, by rw [alistGet_upd_ne _ _ _ _ hpq]; exact hpe, hmem⟩

/-- The child-registration fold of `add_event` registers the new hash as a
child of every present parent. -/
theorem foldl_addChild_mem (hash : Hash) (ps : List Hash)
    (events : List (Hash × Event)) (p : Hash) (hp : p ∈ ps)
    (hsome : (alistGet events p).isSome) :
    ∃ pe, alistGet
        (ps.foldl (fun m q => alistUpd m q
          (fun e => { e with children := e.children ++ [hash] })) events) p =
      some pe ∧ hash ∈ pe.children := by
  induction ps generalizing events with
  | nil => cases hp
  | cons q rest ih =>
    simp only [List.foldl_cons]
    rcases List.mem_cons.mp hp with hq | hrest
    · subst hq
      apply foldl_addChild_preserve
      obtain ⟨pe, hpe⟩ := Option.isSome_iff_exists.mp hsome
      refine ⟨{ pe with children := pe.children ++ [hash] }, ?_, ?_⟩
      · rw [alistGet_upd_self, hpe]
        rfl
      · exact List.mem_append_right _ (List.mem_singleton.mpr rfl)
    · exact ih _ hrest (by rw [alistGet_upd_isSome]; exact hsome)

/-- Characterization of `addEventChecked` (the tail of `add_event` after
both parent checks): it fails exactly when the hash cannot be recomputed
or the signature does not verify, failure leaves the graph unchanged, and
success installs the event with the given seq, registers children,
updates the author's high-water seq and the root. -/
theorem addEventChecked_spec (hashFn : UnsignedRawEvent → Except Error Hash)
    (verify : Author → Hash → Sig → Except Error Unit)
    (g : Graph) (ev : RawEvent) (seq : Nat)
    (hpar : ∀ p, p ∈ ev.event.parentHashes → (g.event p).isSome) :
    (((Graph.addEventChecked hashFn verify g ev seq).1.isOk = false) ↔
      ((match hashFn ev.event with
        | .error _ => true
        | .ok h => ¬ (verify ev.event.author h ev.signature).isOk) = true)) ∧
    (∀ err, (Graph.addEventChecked hashFn verify g ev seq).1 = .error err →
      (Graph.addEventChecked hashFn verify g ev seq).2 = g) ∧
    (∀ h, (Graph.addEventChecked hashFn verify g ev seq).1 = .ok h →
      (Graph.addEventChecked hashFn verify g ev seq).2.event h =
        some (Event.new ev h seq) ∧
      alistGet (Graph.addEventChecked hashFn verify g ev seq).2.state ev.event.author =
        some seq ∧
      (Graph.addEventChecked hashFn verify g ev seq).2.root = some h ∧
      ∀ p, p ∈ ev.event.parentHashes → p ≠ h →
        ∃ pe, (Graph.addEventChecked hashFn verify g ev seq).2.event p = some pe ∧
          h ∈ pe.children) := by
  cases hh : hashFn ev.event with
  | error err =>
    refine ⟨by simp [Graph.addEventChecked, hh, Except.isOk, Except.toBool], ?_, ?_⟩
    · intro e _
      simp [Graph.addEventChecked, hh]
    · intro h hcontra
      simp [Graph.addEventChecked, hh] at hcontra
  | ok hsh =>
    cases hv : verify ev.event.author hsh ev.signature with
    | error err =>
      refine ⟨by simp [Graph.addEventChecked, hh, hv, Except.isOk, Except.toBool], ?_, ?_⟩
      · intro e _
        simp [Graph.addEventChecked, hh, hv]
      · intro h hcontra
        simp [Graph.addEventChecked, hh, hv] at hcontra
    | ok u =>
      cases u
      refine ⟨by simp [Graph.addEventChecked, hh, hv, Except.isOk, Except.toBool], ?_, ?_⟩
      · intro e hcontra
        simp [Graph.addEventChecked, hh, hv] at hcontra
      · intro h heq
        have hne : hsh = h := by
          simpa [Graph.addEventChecked, hh, hv] using heq
        subst hne
        simp only [Graph.addEventChecked, hh, hv, Graph.event]
        refine ⟨?_, ?_, ?_, ?_⟩
        · exact alistGet_put_self _ _ _
        · exact alistGet_put_self _ _ _
        · trivial
        · intro p hp hpne
          rw [alistGet_put_ne _ _ _ _ hpne]
          exact foldl_addChild_mem hsh _ g.events p hp (hpar p hp)

/-- Characterization of `addEventWithSeq` (the tail of `add_event` after
the self-parent check), assuming a declared self-parent is present. -/
theorem addEventWithSeq_spec (hashFn : UnsignedRawEvent → Except Error Hash)
    (verify : Author → Hash → Sig → Except Error Unit)
    (g : Graph) (ev : RawEvent) (seq : Nat)
    (hself : ∀ p, ev.event.self_hash = some p → (g.event p).isSome) :
    (((Graph.addEventWithSeq hashFn verify g ev seq).1.isOk = false) ↔
      (((match ev.event.other_hash with
         | some p => (g.event p).isNone
         | none => false) ||
        (match hashFn ev.event with
         | .error _ => true
         | .ok h => ¬ (verify ev.event.author h ev.signature).isOk)) = true)) ∧
    (∀ err, (Graph.addEventWithSeq hashFn verify g ev seq).1 = .error err →
      (Graph.addEventWithSeq hashFn verify g ev seq).2 = g) ∧
    (∀ h, (Graph.addEventWithSeq hashFn verify g ev seq).1 = .ok h →
      (Graph.addEventWithSeq hashFn verify g ev seq).2.event h =
        some (Event.new ev h seq) ∧
      alistGet (Graph.addEventWithSeq hashFn verify g ev seq).2.state ev.event.author =
        some seq ∧
      (Graph.addEventWithSeq hashFn verify g ev seq).2.root = some h ∧
      ∀ p, p ∈ ev.event.parentHashes → p ≠ h →
        ∃ pe, (Graph.addEventWithSeq hashFn verify g ev seq).2.event p = some pe ∧
          h ∈ pe.children) := by
  cases ho : ev.event.other_hash with
  | some op =>
    cases hgop : g.event op with
    | none =>
      refine ⟨?_, ?_, ?_⟩
      · simp [Graph.addEventWithSeq, ho, hgop, Except.isOk, Except.toBool]
      · intro err _
        simp [Graph.addEventWithSeq, ho, hgop]
      · intro h hcontra
        simp [Graph.addEventWithSeq, ho, hgop] at hcontra
    | some ope =>
      have hpar : ∀ q, q ∈ ev.event.parentHashes → (g.event q).isSome := by
        intro q hq
        unfold UnsignedRawEvent.parentHashes at hq
        rcases List.mem_append.mp hq with h1 | h2
        · cases hs2 : ev.event.self_hash with
          | none =>
            rw [hs2] at h1
            cases h1
          | some sp =>
            rw [hs2] at h1
            rw [List.mem_singleton.mp h1]
            exact hself sp hs2
        · rw [ho] at h2
          rw [List.mem_singleton.mp h2]
          rw [hgop]
          rfl
      have H := addEventChecked_spec hashFn verify g ev seq hpar
      have hred : Graph.addEventWithSeq hashFn verify g ev seq =
          Graph.addEventChecked hashFn verify g ev seq := by
        simp [Graph.addEventWithSeq, ho, hgop]
      rw [hred]
      refine ⟨?_, H.2.1, H.2.2⟩
      rw [H.1]
      simp [hgop]
  | none =>
    have hpar : ∀ q, q ∈ ev.event.parentHashes → (g.event q).isSome := by
      intro q hq
      unfold UnsignedRawEvent.parentHashes at hq
      rcases List.mem_append.mp hq with h1 | h2
      · cases hs2 : ev.event.self_hash with
        | none =>
          rw [hs2] at h1
          cases h1
        | some sp =>
          rw [hs2] at h1
          rw [List.mem_singleton.mp h1]
          exact hself sp hs2
      · rw [ho] at h2
        cases h2
    have H := addEventChecked_spec hashFn verify g ev seq hpar
    have hred : Graph.addEventWithSeq hashFn verify g ev seq =
        Graph.addEventChecked hashFn verify g ev seq := by
      simp [Graph.addEventWithSeq, ho]
    rw [hred]
    exact ⟨by rw [H.1]; simp, H.2.1, H.2.2⟩

/-- C7: `Graph::add_event` returns an error exactly when a declared parent
hash is absent from the graph, the event's hash cannot be recomputed, or
signature verification of the recomputed hash fails; an error leaves the
graph unchanged; success stores the event with seq = self-parent's seq + 1
(or 1 without a self-parent), registers the new hash as a child of each
present parent, sets the author's high-water seq and makes the new hash
the root. -/
theorem c7_add_event (hashFn : UnsignedRawEvent → Except Error Hash)
    (verify : Author → Hash → Sig → Except Error Unit)
    (g : Graph) (ev : RawEvent) :
    (((Graph.add_event hashFn verify g ev).1.isOk = false) ↔
      addEventRejects hashFn verify g ev = true) ∧
    (∀ err, (Graph.add_event hashFn verify g ev).1 = .error err →
      (Graph.add_event hashFn verify g ev).2 = g) ∧
    (∀ h, (Graph.add_event hashFn verify g ev).1 = .ok h →
      ∃ seq,
        (match ev.event.self_hash with
         | none => seq = 1
         | some p => ∃ pe, g.event p = some pe ∧ seq = pe.seq + 1) ∧
        (Graph.add_event hashFn verify g ev).2.event h = some (Event.new ev h seq) ∧
        alistGet (Graph.add_event hashFn verify g ev).2.state ev.event.author = some seq ∧
        (Graph.add_event hashFn verify g ev).2.root = some h ∧
        ∀ p, p ∈ ev.event.parentHashes → p ≠ h →
          ∃ pe, (Graph.add_event hashFn verify g ev).2.event p = some pe ∧
            h ∈ pe.children) := by
  cases hs : ev.event.self_hash with
  | some sp =>
    cases hgsp : g.event sp with
    | none =>
      refine ⟨?_, ?_, ?_⟩
      · simp [Graph.add_event, hs, hgsp, addEventRejects, Except.isOk, Except.toBool]
      · intro err _
        simp [Graph.add_event, hs, hgsp]
      · intro h hcontra
        simp [Graph.add_event, hs, hgsp] at hcontra
    | some pe =>
      have hself : ∀ p, ev.event.self_hash = some p → (g.event p).isSome := by
        intro p hp
        rw [hs] at hp
        cases hp
        rw [hgsp]
        rfl
      have H := addEventWithSeq_spec hashFn verify g ev (pe.seq + 1) hself
      have hred : Graph.add_event hashFn verify g ev =
          Graph.addEventWithSeq hashFn verify g ev (pe.seq + 1) := by
        simp [Graph.add_event, hs, hgsp]
      rw [hred]
      refine ⟨?_, H.2.1, ?_⟩
      · rw [H.1]
        simp [addEventRejects, hs, hgsp]
      · intro h hok
        refine ⟨pe.seq + 1, ⟨pe, hgsp, rfl⟩, H.2.2 h hok⟩
  | none =>
    have hself : ∀ p, ev.event.self_hash = some p → (g.event p).isSome := by
      intro p hp
      rw [hs] at hp
      cases hp
    have H := addEventWithSeq_spec hashFn verify g ev 1 hself
    have hred : Graph.add_event hashFn verify g ev =
        Graph.addEventWithSeq hashFn verify g ev 1 := by
      simp [Graph.add_event, hs]
    rw [hred]
    refine ⟨?_, H.2.1, ?_⟩
    · rw [H.1]
      simp [addEventRejects, hs]
    · intro h hok
      exact ⟨1, rfl, H.2.2 h hok⟩

/-- Closed instance of `c7_add_event`: adding `ev2` (self-parentless, with
present other-parent 1) to the one-event graph succeeds with seq 1, stores
it under hash 2, registers it as a child of event 1, and roots it; adding
`ev3` (self-parent 1 absent) to the empty graph fails and leaves the empty
graph unchanged. -/
theorem c7_add_event_witness :
    ((Graph.add_event timeHash okVerify Graph.empty ev3).2 = Graph.empty) ∧
    (∃ seq,
      (match ev2.event.self_hash with
       | none => seq = 1
       | some p => ∃ pe, (addG Graph.empty ev1).event p = some pe ∧ seq = pe.seq + 1) ∧
      (Graph.add_event timeHash okVerify (addG Graph.empty ev1) ev2).2.event 2 =
        some (Event.new ev2 2 seq) ∧
      alistGet (Graph.add_event timeHash okVerify (addG Graph.empty ev1) ev2).2.state
        ev2.event.author = some seq ∧
      (Graph.add_event timeHash okVerify (addG Graph.empty ev1) ev2).2.root = some 2 ∧
      ∀ p, p ∈ ev2.event.parentHashes → p ≠ 2 →
        ∃ pe, (Graph.add_event timeHash okVerify (addG Graph.empty ev1) ev2).2.event p =
            some pe ∧ 2 ∈ pe.children) :=
  ⟨(c7_add_event timeHash okVerify Graph.empty ev3).2.1 .invalidEvent rfl,
   (c7_add_event timeHash okVerify (addG Graph.empty ev1) ev2).2.2 2 rfl⟩

/-- A non-member of a non-empty prefix list is refused by the permission
gate with no state change. -/
theorem add_author_to_pfx_nonmember (acl : Acl) (author : Author) (pfx : List Nat)
    (new : Author) (l : List Author)
    (hl : alistGet acl.tree pfx = some (.authors l))
    (hne : l ≠ []) (hmem : author ∉ l) :
    acl.add_author_to_pfx author pfx new = (.ok (.error .permission), acl) := by
  unfold Acl.add_author_to_pfx Acl.authorsAt
  rw [hl]
  simp [hne, hmem]

/-- C8: a write (Insert, Remove or CompareAndSwap) by an author outside a
prefix's non-empty ACL author list yields the `Permission` transaction
error, and the ACL tree — hence both the value at the key and the prefix's
author list — is unchanged. -/
theorem c8_acl_nonmember_write (acl : Acl) (author : Author) (key : Key)
    (value : List Nat) (old new : Option (List Nat)) (l : List Author)
    (hl : alistGet acl.tree key.pfx = some (.authors l))
    (hne : l ≠ []) (hmem : author ∉ l) :
    acl.insert author key value = (.ok (.error .permission), acl) ∧
    acl.remove author key = (.ok (.error .permission), acl) ∧
    acl.compare_and_swap author key old new = (.ok (.error .permission), acl) := by
  have hperm := add_author_to_pfx_nonmember acl author key.pfx author l hl hne hmem
  refine ⟨?_, ?_, ?_⟩
  · unfold Acl.insert
    rw [hperm]
  · unfold Acl.remove
    rw [hperm]
  · unfold Acl.compare_and_swap
    rw [hperm]

/-- Closed instance of `c8_acl_nonmember_write`: prefix `[0]` is owned by
author 5 alone; author 7's insert, remove and compare-and-swap all return
`Permission` and leave the tree untouched. -/
theorem c8_acl_nonmember_write_witness :
    (Acl.insert ⟨[([0], .authors [5])]⟩ 7 ⟨[0], [1]⟩ [9] =
      (.ok (.error .permission), ⟨[([0], .authors [5])]⟩)) ∧
    (Acl.remove ⟨[([0], .authors [5])]⟩ 7 ⟨[0], [1]⟩ =
      (.ok (.error .permission), ⟨[([0], .authors [5])]⟩)) ∧
    (Acl.compare_and_swap ⟨[([0], .authors [5])]⟩ 7 ⟨[0], [1]⟩ none (some [9]) =
      (.ok (.error .permission), ⟨[([0], .authors [5])]⟩)) :=
  c8_acl_nonmember_write ⟨[([0], .authors [5])]⟩ 7 ⟨[0], [1]⟩ [9] none (some [9]) [5]
    (by decide) (by decide) (by decide)

/-- The encoded KV key is never the bare prefix (their lengths differ). -/
theorem key_encode_ne_pfx (k : Key) : k.encode ≠ k.pfx := by
  intro h
  have hlen : k.encode.length = k.pfx.length := by rw [h]
  simp [Key.encode] at hlen
  omega

/-- C10: removing an author from a prefix whose ACL list is absent or
empty returns `Permission` and leaves the tree unchanged, while the write
path lets the first writer claim the unowned prefix: its insert succeeds,
records the writer as the sole owner, and stores the value. -/
theorem c10_remove_unowned_vs_first_write (acl : Acl) (author rm : Author)
    (key : Key) (value : List Nat)
    (h : alistGet acl.tree key.pfx = none ∨
         alistGet acl.tree key.pfx = some (.authors [])) :
    acl.remove_author_from_pfx author key.pfx rm = (.ok (.error .permission), acl) ∧
    (acl.insert author key value).1 = .ok (.ok ()) ∧
    (acl.insert author key value).2.authorsAt key.pfx = .ok [author] ∧
    alistGet (acl.insert author key value).2.tree key.encode = some (.bytes value) := by
  have hauth : acl.authorsAt key.pfx = .ok [] := by
    unfold Acl.authorsAt
    rcases h with h | h <;> rw [h]
  have hadd : acl.add_author_to_pfx author key.pfx author =
      (.ok (.ok ()), ⟨alistPut acl.tree key.pfx (.authors [author])⟩) := by
    unfold Acl.add_author_to_pfx
    rw [hauth]
    simp
  refine ⟨?_, ?_, ?_, ?_⟩
  · unfold Acl.remove_author_from_pfx
    rw [hauth]
    simp
  · unfold Acl.insert
    rw [hadd]
  · unfold Acl.insert
    rw [hadd]
    show (Acl.mk (alistPut (alistPut acl.tree key.pfx (TreeVal.authors [author]))
      key.encode (TreeVal.bytes value))).authorsAt key.pfx = Except.ok [author]
    unfold Acl.authorsAt
    rw [alistGet_put_ne (alistPut acl.tree key.pfx (TreeVal.authors [author]))
      key.encode key.pfx (TreeVal.bytes value) (Ne.symm (key_encode_ne_pfx key))]
    rw [alistGet_put_self]
  · unfold Acl.insert
    rw [hadd]
    show alistGet (alistPut (alistPut acl.tree key.pfx (TreeVal.authors [author]))
      key.encode (TreeVal.bytes value)) key.encode = some (TreeVal.bytes value)
    rw [alistGet_put_self]

/-- Closed instance of `c10_remove_unowned_vs_first_write` on the empty
tree. -/
theorem c10_remove_unowned_witness :
    (Acl.remove_author_from_pfx ⟨[]⟩ 7 (Key.pfx ⟨[0], [1]⟩) 5 =
      (.ok (.error .permission), ⟨[]⟩)) ∧
    (Acl.insert ⟨[]⟩ 7 ⟨[0], [1]⟩ [9]).1 = .ok (.ok ()) ∧
    (Acl.insert ⟨[]⟩ 7 ⟨[0], [1]⟩ [9]).2.authorsAt (Key.pfx ⟨[0], [1]⟩) = .ok [7] ∧
    alistGet (Acl.insert ⟨[]⟩ 7 ⟨[0], [1]⟩ [9]).2.tree (Key.encode ⟨[0], [1]⟩) =
      some (.bytes [9]) :=
  c10_remove_unowned_vs_first_write ⟨[]⟩ 7 5 ⟨[0], [1]⟩ [9] (Or.inl rfl)

/-- The common state transition of the two `add_sig` implementations, on
the (signees, signatures) pair. -/
def sigFold (verify : Author → Hash → Sig → Except Error Unit) (h : Hash)
    (st : List Author × List Sig) (c : Author × Sig) : List Author × List Sig :=
  if st.1.contains c.1 then st
  else if ¬ (verify c.1 h c.2).isOk then st
  else (st.1 ++ [c.1], st.2 ++ [c.2])

/-- Invariant of the `sigFold` loop: starting from nodup signees matching
the signature count, the final signature count is the cardinality of the
initial signees joined with the valid signers among the calls. -/
theorem sigFold_count (verify : Author → Hash → Sig → Except Error Unit) (h : Hash)
    (calls : List (Author × Sig)) (sg : List Author) (sigs : List Sig)
    (hnd : sg.Nodup) (hlen : sigs.length = sg.length) :
    (calls.foldl (sigFold verify h) (sg, sigs)).2.length =
      (sg.toFinset ∪
        ((calls.filter (fun c => (verify c.1 h c.2).isOk)).map Prod.fst).toFinset).card := by
  induction calls generalizing sg sigs with
  | nil =>
    simp [hlen, List.toFinset_card_of_nodup hnd]
  | cons c rest ih =>
    simp only [List.foldl_cons]
    by_cases hm : c.1 ∈ sg
    · have hstep : sigFold verify h (sg, sigs) c = (sg, sigs) := by
        simp [sigFold, hm]
      rw [hstep, ih sg sigs hnd hlen]
      by_cases hv : (verify c.1 h c.2).isOk = true
      · have hmem : c.1 ∈ sg.toFinset := List.mem_toFinset.mpr hm
        simp [List.filter_cons, hv, Finset.union_insert,
          Finset.insert_eq_self.mpr (Finset.mem_union_left _ hmem)]
      · simp [List.filter_cons, hv]
    · by_cases hv : (verify c.1 h c.2).isOk = true
      · have hstep : sigFold verify h (sg, sigs) c = (sg ++ [c.1], sigs ++ [c.2]) := by
          simp [sigFold, hm, hv]
        have hnd' : (sg ++ [c.1]).Nodup := by
          simp [List.nodup_append, hnd, hm]
        have hlen' : (sigs ++ [c.2]).length = (sg ++ [c.1]).length := by
          simp [hlen]
        rw [hstep, ih (sg ++ [c.1]) (sigs ++ [c.2]) hnd' hlen']
        have : (sg ++ [c.1]).toFinset = insert c.1 sg.toFinset := by
          simp [List.toFinset_append]
          ext a
          simp [or_comm]
        rw [this]
        simp [List.filter_cons, hv, Finset.insert_union, Finset.union_insert]
      · have hstep : sigFold verify h (sg, sigs) c = (sg, sigs) := by
          simp [sigFold, hm, hv]
        rw [hstep, ih sg sigs hnd hlen]
        simp [List.filter_cons, hv]

/-- Folding `ProposedBlock::add_sig` is the `sigFold` loop on the signee
state (the block and hash fields never change). -/
theorem foldl_add_sig_block (verify : Author → Hash → Sig → Except Error Unit)
    (calls : List (Author × Sig)) (p : ProposedBlock) :
    (calls.foldl (fun q c => q.add_sig verify c.1 c.2) p).signatures =
      (calls.foldl (sigFold verify p.hash) (p.signees, p.signatures)).2 := by
  induction calls generalizing p with
  | nil => rfl
  | cons c rest ih =>
    simp only [List.foldl_cons]
    have hhash : (p.add_sig verify c.1 c.2).hash = p.hash := by
      unfold ProposedBlock.add_sig
      split
      · rfl
      · split <;> rfl
    have hstate : ((p.add_sig verify c.1 c.2).signees,
        (p.add_sig verify c.1 c.2).signatures) = sigFold verify p.hash (p.signees, p.signatures) c := by
      unfold ProposedBlock.add_sig sigFold
      by_cases hm : c.1 ∈ p.signees
      · simp [hm]
      · by_cases hv : (verify c.1 p.hash c.2).isOk = true <;> simp [hm, hv]
    rw [ih (p.add_sig verify c.1 c.2), hhash, ← hstate]

/-- Folding `ProposedCheckpoint::add_sig` is the `sigFold` loop on the
signee state. -/
theorem foldl_add_sig_checkpoint (verify : Author → Hash → Sig → Except Error Unit)
    (calls : List (Author × Sig)) (p : ProposedCheckpoint) :
    (calls.foldl (fun q c => q.add_sig verify c.1 c.2) p).signatures =
      (calls.foldl (sigFold verify p.checkpoint) (p.signees, p.signatures)).2 := by
  induction calls generalizing p with
  | nil => rfl
  | cons c rest ih =>
    simp only [List.foldl_cons]
    have hhash : (p.add_sig verify c.1 c.2).checkpoint = p.checkpoint := by
      unfold ProposedCheckpoint.add_sig
      split
      · rfl
      · split <;> rfl
    have hstate : ((p.add_sig verify c.1 c.2).signees,
        (p.add_sig verify c.1 c.2).signatures) =
          sigFold verify p.checkpoint (p.signees, p.signatures) c := by
      unfold ProposedCheckpoint.add_sig sigFold
      by_cases hm : c.1 ∈ p.signees
      · simp [hm]
      · by_cases hv : (verify c.1 p.checkpoint c.2).isOk = true <;> simp [hm, hv]
    rw [ih (p.add_sig verify c.1 c.2), hhash, ← hstate]

/-- C9: for every sequence of `add_sig` calls on a fresh `ProposedBlock`
or `ProposedCheckpoint`, the stored signature count equals the number of
distinct authors that submitted a signature verifying against the
block/checkpoint hash — each signer is counted at most once and invalid
signatures are never stored. -/
theorem c9_add_sig_counts_distinct_valid_signers
    (verify : Author → Hash → Sig → Except Error Unit) (hashFn : Block → Hash)
    (blk : Block) (cp : Hash) (calls : List (Author × Sig)) :
    ((calls.foldl (fun q c => q.add_sig verify c.1 c.2)
        (ProposedBlock.new hashFn blk)).signatures.length =
      validSignerCount verify (hashFn blk) calls) ∧
    ((calls.foldl (fun q c => q.add_sig verify c.1 c.2)
        (ProposedCheckpoint.new cp)).signatures.length =
      validSignerCount verify cp calls) := by
  constructor
  · rw [foldl_add_sig_block]
    show (calls.foldl (sigFold verify (hashFn blk)) ([], [])).2.length = _
    rw [sigFold_count verify (hashFn blk) calls [] [] List.nodup_nil rfl]
    simp [validSignerCount, List.card_toFinset]
  · rw [foldl_add_sig_checkpoint]
    show (calls.foldl (sigFold verify cp) ([], [])).2.length = _
    rw [sigFold_count verify cp calls [] [] List.nodup_nil rfl]
    simp [validSignerCount, List.card_toFinset]

/-! ### The commit order is the lexicographic triple order -/

theorem natCompare_swap (a b : Nat) : (compare a b).swap = compare b a := by
  rcases Nat.lt_trichotomy a b with h | h | h
  · rw [Nat.compare_eq_lt.mpr h, Nat.compare_eq_gt.mpr h]
    rfl
  · subst h
    rw [Nat.compare_eq_eq.mpr rfl]
    rfl
  · rw [Nat.compare_eq_gt.mpr h, Nat.compare_eq_lt.mpr h]
    rfl

theorem listCompare_swap (x y : List Nat) : (listCompare x y).swap = listCompare y x := by
  induction x generalizing y with
  | nil => cases y <;> rfl
  | cons x0 xs ih =>
    cases y with
    | nil => rfl
    | cons y0 ys =>
      show (match compare x0 y0 with
        | .eq => listCompare xs ys
        | o => o).swap = (match compare y0 x0 with
        | .eq => listCompare ys xs
        | o => o)
      rw [← natCompare_swap x0 y0]
      cases compare x0 y0 with
      | eq => exact ih ys
      | lt => rfl
      | gt => rfl

theorem listCompare_eq_iff (x y : List Nat) : listCompare x y = .eq ↔ x = y := by
  induction x generalizing y with
  | nil =>
    cases y with
    | nil => simp [listCompare]
    | cons y0 ys => simp [listCompare]
  | cons x0 xs ih =>
    cases y with
    | nil => simp [listCompare]
    | cons y0 ys =>
      show (match compare x0 y0 with
        | .eq => listCompare xs ys
        | o => o) = .eq ↔ _
      cases hc : compare x0 y0 with
      | eq =>
        have hx : x0 = y0 := Nat.compare_eq_eq.mp hc
        simp [hx, ih ys]
      | lt =>
        have hx : x0 ≠ y0 := Nat.ne_of_lt (Nat.compare_eq_lt.mp hc)
        simp [hx]
      | gt =>
        have hx : x0 ≠ y0 := (Nat.ne_of_lt (Nat.compare_eq_gt.mp hc)).symm
        simp [hx]

theorem listCompare_lt_trans {x y z : List Nat} (h1 : listCompare x y = .lt)
    (h2 : listCompare y z = .lt) : listCompare x z = .lt := by
  induction x generalizing y z with
  | nil =>
    cases y with
    | nil => exact absurd h1 (by simp [listCompare])
    | cons y0 ys =>
      cases z with
      | nil => exact absurd h2 (by simp [listCompare])
      | cons z0 zs => simp [listCompare]
  | cons x0 xs ih =>
    cases y with
    | nil => exact absurd h1 (by simp [listCompare])
    | cons y0 ys =>
      cases z with
      | nil => exact absurd h2 (by simp [listCompare])
      | cons z0 zs =>
        have h1' : (match compare x0 y0 with
          | .eq => listCompare xs ys
          | o => o) = .lt := h1
        have h2' : (match compare y0 z0 with
          | .eq => listCompare ys zs
          | o => o) = .lt := h2
        show (match compare x0 z0 with
          | .eq => listCompare xs zs
          | o => o) = .lt
        cases hc1 : compare x0 y0 with
        | gt => rw [hc1] at h1'; exact absurd h1' (by simp)
        | lt =>
          have hlt1 : x0 < y0 := Nat.compare_eq_lt.mp hc1
          cases hc2 : compare y0 z0 with
          | gt => rw [hc2] at h2'; exact absurd h2' (by simp)
          | lt =>
            have hlt2 : y0 < z0 := Nat.compare_eq_lt.mp hc2
            rw [Nat.compare_eq_lt.mpr (Nat.lt_trans hlt1 hlt2)]
          | eq =>
            have he : y0 = z0 := Nat.compare_eq_eq.mp hc2
            rw [Nat.compare_eq_lt.mpr (he ▸ hlt1)]
        | eq =>
          have he1 : x0 = y0 := Nat.compare_eq_eq.mp hc1
          rw [hc1] at h1'
          cases hc2 : compare y0 z0 with
          | gt => rw [hc2] at h2'; exact absurd h2' (by simp)
          | lt =>
            have hlt2 : y0 < z0 := Nat.compare_eq_lt.mp hc2
            rw [Nat.compare_eq_lt.mpr (he1 ▸ hlt2)]
          | eq =>
            have he2 : y0 = z0 := Nat.compare_eq_eq.mp hc2
            rw [hc2] at h2'
            rw [Nat.compare_eq_eq.mpr (he1.trans he2)]
            exact ih h1' h2'

theorem keyCompare_swap (k1 k2 : Nat × Nat × List Nat) :
    (keyCompare k1 k2).swap = keyCompare k2 k1 := by
  unfold keyCompare
  rw [← natCompare_swap k1.1 k2.1]
  cases compare k1.1 k2.1 with
  | lt => rfl
  | gt => rfl
  | eq =>
    rw [← natCompare_swap k1.2.1 k2.2.1]
    cases compare k1.2.1 k2.2.1 with
    | lt => rfl
    | gt => rfl
    | eq => exact listCompare_swap _ _

theorem keyCompare_eq_iff (k1 k2 : Nat × Nat × List Nat) :
    keyCompare k1 k2 = .eq ↔ k1 = k2 := by
  unfold keyCompare
  cases hc : compare k1.1 k2.1 with
  | lt =>
    have : k1.1 ≠ k2.1 := Nat.ne_of_lt (Nat.compare_eq_lt.mp hc)
    simp only []
    constructor
    · intro h
      cases h
    · intro h
      exact absurd (congrArg Prod.fst h) this
  | gt =>
    have : k1.1 ≠ k2.1 := (Nat.ne_of_lt (Nat.compare_eq_gt.mp hc)).symm
    constructor
    · intro h
      cases h
    · intro h
      exact absurd (congrArg Prod.fst h) this
  | eq =>
    have h1 : k1.1 = k2.1 := Nat.compare_eq_eq.mp hc
    cases hc2 : compare k1.2.1 k2.2.1 with
    | lt =>
      have : k1.2.1 ≠ k2.2.1 := Nat.ne_of_lt (Nat.compare_eq_lt.mp hc2)
      constructor
      · intro h
        cases h
      · intro h
        exact absurd (congrArg (fun p => p.2.1) h) this
    | gt =>
      have : k1.2.1 ≠ k2.2.1 := (Nat.ne_of_lt (Nat.compare_eq_gt.mp hc2)).symm
      constructor
      · intro h
        cases h
      · intro h
        exact absurd (congrArg (fun p => p.2.1) h) this
    | eq =>
      have h2 : k1.2.1 = k2.2.1 := Nat.compare_eq_eq.mp hc2
      rw [listCompare_eq_iff]
      constructor
      · intro h3
        exact Prod.ext h1 (Prod.ext h2 h3)
      · intro h
        exact congrArg (fun p => p.2.2) h

theorem keyCompare_not_gt_cases (k1 k2 : Nat × Nat × List Nat)
    (h : keyCompare k1 k2 ≠ .gt) :
    k1.1 < k2.1 ∨
    (k1.1 = k2.1 ∧ (k1.2.1 < k2.2.1 ∨
      (k1.2.1 = k2.2.1 ∧ (listCompare k1.2.2 k2.2.2 = .lt ∨ k1.2.2 = k2.2.2)))) := by
  unfold keyCompare at h
  cases hc : compare k1.1 k2.1 with
  | lt => exact Or.inl (Nat.compare_eq_lt.mp hc)
  | gt => rw [hc] at h; exact absurd rfl h
  | eq =>
    refine Or.inr ⟨Nat.compare_eq_eq.mp hc, ?_⟩
    rw [hc] at h
    cases hc2 : compare k1.2.1 k2.2.1 with
    | lt => exact Or.inl (Nat.compare_eq_lt.mp hc2)
    | gt => rw [hc2] at h; exact absurd rfl h
    | eq =>
      refine Or.inr ⟨Nat.compare_eq_eq.mp hc2, ?_⟩
      rw [hc2] at h
      cases hc3 : listCompare k1.2.2 k2.2.2 with
      | lt => exact Or.inl rfl
      | gt => exact absurd hc3 h
      | eq => exact Or.inr (listCompare_eq_iff _ _ |>.mp hc3)

theorem keyCompare_not_gt_trans {k1 k2 k3 : Nat × Nat × List Nat}
    (h1 : keyCompare k1 k2 ≠ .gt) (h2 : keyCompare k2 k3 ≠ .gt) :
    keyCompare k1 k3 ≠ .gt := by
  rcases keyCompare_not_gt_cases k1 k2 h1 with ha | ⟨hae, ha⟩
  · rcases keyCompare_not_gt_cases k2 k3 h2 with hb | ⟨hbe, _⟩
    · unfold keyCompare
      rw [Nat.compare_eq_lt.mpr (Nat.lt_trans ha hb)]
      simp
    · unfold keyCompare
      rw [Nat.compare_eq_lt.mpr (hbe ▸ ha)]
      simp
  · rcases keyCompare_not_gt_cases k2 k3 h2 with hb | ⟨hbe, hb⟩
    · unfold keyCompare
      rw [Nat.compare_eq_lt.mpr (hae ▸ hb)]
      simp
    · unfold keyCompare
      rw [Nat.compare_eq_eq.mpr (hae.trans hbe)]
      rcases ha with ha2 | ⟨hae2, ha2⟩
      · rcases hb with hb2 | ⟨hbe2, _⟩
        · rw [Nat.compare_eq_lt.mpr (Nat.lt_trans ha2 hb2)]
          simp
        · rw [Nat.compare_eq_lt.mpr (hbe2 ▸ ha2)]
          simp
      · rcases hb with hb2 | ⟨hbe2, hb2⟩
        · rw [Nat.compare_eq_lt.mpr (hae2 ▸ hb2)]
          simp
        · rw [Nat.compare_eq_eq.mpr (hae2.trans hbe2)]
          rcases ha2 with ha3 | ha3
          · rcases hb2 with hb3 | hb3
            · rw [listCompare_lt_trans ha3 hb3]
              simp
            · have hcc : listCompare k1.2.2 k3.2.2 = .lt := by
                rw [← hb3]
                exact ha3
              rw [hcc]
              simp
          · rcases hb2 with hb3 | hb3
            · have hcc : listCompare k1.2.2 k3.2.2 = .lt := by
                rw [ha3]
                exact hb3
              rw [hcc]
              simp
            · rw [listCompare_eq_iff _ _ |>.mpr (ha3.trans hb3)]
              simp

theorem sortLe_trans (a b c : Event) (h1 : Event.sortLe a b = true)
    (h2 : Event.sortLe b c = true) : Event.sortLe a c = true := by
  unfold Event.sortLe at h1 h2 ⊢
  rw [decide_eq_true_iff] at h1 h2 ⊢
  exact keyCompare_not_gt_trans h1 h2

theorem sortLe_total (a b : Event) :
    (Event.sortLe a b || Event.sortLe b a) = true := by
  unfold Event.sortLe
  by_cases h : keyCompare a.sortKey b.sortKey = .gt
  · have : keyCompare b.sortKey a.sortKey = .lt := by
      rw [← keyCompare_swap a.sortKey b.sortKey, h]
      rfl
    simp [this]
  · simp [h]

/-- On events whose three order fields are all set, the total comparator
used by the embedded sort agrees with the source's `partial_cmp` followed
by `Ord`'s unwrap: the key comparison is non-`gt` exactly when
`partial_cmp` is defined and non-`gt`. -/
theorem sortLe_iff_partialCmp (a b : Event) (r1 t1 r2 t2 : Nat) (w1 w2 : Sig)
    (hr1 : a.round_received = some r1) (ht1 : a.time_received = some t1)
    (hw1 : a.whitened_signature = some w1)
    (hr2 : b.round_received = some r2) (ht2 : b.time_received = some t2)
    (hw2 : b.whitened_signature = some w2) :
    (Event.sortLe a b = true ↔ Event.partialCmp a b ≠ some .gt) := by
  have hk1 : a.sortKey = (r1, t1, w1) := by
    simp [Event.sortKey, hr1, ht1, hw1]
  have hk2 : b.sortKey = (r2, t2, w2) := by
    simp [Event.sortKey, hr2, ht2, hw2]
  unfold Event.sortLe Event.partialCmp
  rw [hk1, hk2, hr1, hr2, ht1, ht2, hw1, hw2]
  unfold keyCompare
  by_cases hr : r1 = r2
  · subst hr
    rw [Nat.compare_eq_eq.mpr rfl]
    simp only [if_neg (by simp : ¬ r1 ≠ r1)]
    by_cases ht : t1 = t2
    · subst ht
      rw [Nat.compare_eq_eq.mpr rfl]
      simp only [if_neg (by simp : ¬ t1 ≠ t1)]
      cases listCompare w1 w2 <;> simp
    · rcases Nat.lt_or_ge t1 t2 with hlt | hge
      · have hc := Nat.compare_eq_lt.mpr hlt
        simp [ht, hc]
      · have hgt : t2 < t1 := Nat.lt_of_le_of_ne hge (fun hh => ht hh.symm)
        have hc := Nat.compare_eq_gt.mpr hgt
        simp [ht, hc]
  · rcases Nat.lt_or_ge r1 r2 with hlt | hge
    · have hc := Nat.compare_eq_lt.mpr hlt
      simp [hr, hc]
    · have hgt : r2 < r1 := Nat.lt_of_le_of_ne hge (fun hh => hr hh.symm)
      have hc := Nat.compare_eq_gt.mpr hgt
      simp [hr, hc]

/-- The sorted commit list of `process_rounds`, before projecting hashes. -/
def Voter.sortedCommitEvents (v : Voter) : List Event :=
  ((v.commitPhase).2.filterMap (v.commitPhase).1.graph.event).insertionSort eventLe

/-- C5: `process_rounds` returns the hashes of the sorted commit list, and
that list is strictly ascending in the lexicographic triple
(`round_received`, `time_received`, `whitened_signature`): for any
consecutive pair whose fields are set (they always are on committed
events) and whose whitened signatures differ when the first two components
tie, the earlier event's round is smaller, or equal with smaller
consensus time, or both equal with lexicographically smaller whitened
signature. -/
theorem c5_process_rounds_sorted (v : Voter) :
    ((v.process_rounds).2 = (v.sortedCommitEvents).map (·.hash)) ∧
    (∀ i e1 e2 r1 t1 w1 r2 t2 w2,
      (v.sortedCommitEvents).get? i = some e1 →
      (v.sortedCommitEvents).get? (i + 1) = some e2 →
      e1.round_received = some r1 → e1.time_received = some t1 →
      e1.whitened_signature = some w1 →
      e2.round_received = some r2 → e2.time_received = some t2 →
      e2.whitened_signature = some w2 →
      (r1 = r2 → t1 = t2 → w1 ≠ w2) →
      (r1 < r2 ∨ (r1 = r2 ∧ t1 < t2) ∨
        (r1 = r2 ∧ t1 = t2 ∧ listCompare w1 w2 = .lt))) := by
  constructor
  · rfl
  · intro i e1 e2 r1 t1 w1 r2 t2 w2 hg1 hg2 hr1 ht1 hw1 hr2 ht2 hw2 hdiff
    have hsorted : List.Pairwise eventLe (v.sortedCommitEvents) :=
      @List.sorted_insertionSort Event eventLe _
        ⟨fun a b => by
          rcases Bool.or_eq_true_iff.mp (sortLe_total a b) with h | h
          · exact Or.inl h
          · exact Or.inr h⟩
        ⟨fun a b c h1 h2 => sortLe_trans a b c h1 h2⟩ _
    obtain ⟨hi1, he1⟩ := List.get?_eq_some.mp hg1
    obtain ⟨hi2, he2⟩ := List.get?_eq_some.mp hg2
    have hle : eventLe e1 e2 := by
      have := (List.pairwise_iff_get.mp hsorted) ⟨i, hi1⟩ ⟨i + 1, hi2⟩
        (by exact Nat.lt_succ_self i)
      rw [he1, he2] at this
      exact this
    have hkey : keyCompare e1.sortKey e2.sortKey ≠ .gt := by
      rw [eventLe, Event.sortLe] at hle
      exact decide_eq_true_iff.mp hle
    have hk1 : e1.sortKey = (r1, t1, w1) := by
      simp [Event.sortKey, hr1, ht1, hw1]
    have hk2 : e2.sortKey = (r2, t2, w2) := by
      simp [Event.sortKey, hr2, ht2, hw2]
    rw [hk1, hk2] at hkey
    rcases keyCompare_not_gt_cases _ _ hkey with h | ⟨hre, h⟩
    · exact Or.inl h
    · rcases h with h | ⟨hte, h⟩
      · exact Or.inr (Or.inl ⟨hre, h⟩)
      · rcases h with h | h
        · exact Or.inr (Or.inr ⟨hre, hte, h⟩)
        · exact absurd h (hdiff hre hte)

/-- Closed instance of `c5_process_rounds_sorted`: in the eight-event run
the first two committed events land in rounds 1 and 2 with consensus
times 2 and 3, so the strict triple order holds at the first consecutive
pair. -/
theorem c5_process_rounds_sorted_witness :
    1 < 2 ∨ (1 = 2 ∧ 2 < 3) ∨
      (1 = 2 ∧ 2 = 3 ∧
        listCompare (List.replicate 64 2) (List.replicate 64 5) = .lt) :=
  (c5_process_rounds_sorted voterEight).2 0
    { raw := ev1, hash := 1, seq := 1, parents := [], children := [2, 3],
      round_created := some 1, witness := some true, votes := [], famous := some true,
      round_received := some 1, time_received := some 2,
      whitened_signature := some (List.replicate 64 2) }
    { raw := ev2, hash := 2, seq := 1, parents := [1], children := [3, 4],
      round_created := some 1, witness := some true, votes := [], famous := some true,
      round_received := some 2, time_received := some 3,
      whitened_signature := some (List.replicate 64 5) }
    1 2 (List.replicate 64 2) 2 3 (List.replicate 64 5)
    (by decide) (by decide) rfl rfl rfl rfl rfl rfl
    (fun h => absurd h (by decide))

/-! ### Soundness and topological order of the sync stream -/

/-- In a well-formed graph (every stored event is keyed by its own hash),
a resolved parent is stored at its own hash. -/
theorem parentsOf_lookup (g : Graph) (hwf : ∀ h e, g.event h = some e → e.hash = h)
    (e p : Event) (hp : p ∈ g.parentsOf e) : g.event p.hash = some p := by
  obtain ⟨ph, _, hlook⟩ := List.mem_filterMap.mp hp
  rw [hwf ph p hlook]
  exact hlook

/-- Invariant induction over the `Graph::sync` DFS loop: if every stack
event is stored at its hash, every black hash is either already emitted or
known to the peer, and the accumulated post-order output is sound (only
peer-missing events) and topologically ordered (parents emitted earlier or
peer-known), then the loop's final output is sound and topologically
ordered. -/
theorem syncLoop_spec (g : Graph) (st : List (Author × Nat))
    (hwf : ∀ h e, g.event h = some e → e.hash = h)
    (fuel : Nat) (stack : List Event) (black : List Hash) (post : List Event)
    (hstack : ∀ e, e ∈ stack → g.event e.hash = some e)
    (hblack : ∀ h, h ∈ black →
      (∃ j, (post.get? j).map (·.hash) = some h) ∨
      (∃ e, g.event h = some e ∧ e.seq ≤ peerSeq st e.author))
    (hsound : ∀ e, e ∈ post → peerSeq st e.author < e.seq)
    (hord : ∀ i e, post.get? i = some e → ∀ p, p ∈ g.parentsOf e →
      p.seq ≤ peerSeq st p.author ∨
      ∃ j, j < i ∧ (post.get? j).map (·.hash) = some p.hash) :
    (∀ e, e ∈ syncLoop g st fuel stack black post → peerSeq st e.author < e.seq) ∧
    (∀ i e, (syncLoop g st fuel stack black post).get? i = some e →
      ∀ p, p ∈ g.parentsOf e →
      p.seq ≤ peerSeq st p.author ∨
      ∃ j, j < i ∧
        ((syncLoop g st fuel stack black post).get? j).map (·.hash) = some p.hash) := by
  induction fuel generalizing stack black post with
  | zero => exact ⟨hsound, fun i e hg => hord i e hg⟩
  | succ fuel ih =>
    cases stack with
    | nil => exact ⟨hsound, fun i e hg => hord i e hg⟩
    | cons e rest =>
      have hstackRest : ∀ x, x ∈ rest → g.event x.hash = some x :=
        fun x hx => hstack x (List.mem_cons_of_mem e hx)
      have hstackE : g.event e.hash = some e := hstack e (List.mem_cons_self e rest)
      have hunfold : syncLoop g st (fuel + 1) (e :: rest) black post =
          (if black.contains e.hash then
            syncLoop g st fuel rest black post
          else if e.seq ≤ peerSeq st e.author then
            syncLoop g st fuel rest (e.hash :: black) post
          else if ((g.parentsOf e).filter (fun p => !(black.contains p.hash))).isEmpty then
            syncLoop g st fuel rest (e.hash :: black) (post ++ [e])
          else
            syncLoop g st fuel
              (((g.parentsOf e).filter (fun p => !(black.contains p.hash))).reverse ++
                e :: rest) black post) := rfl
      rw [hunfold]
      by_cases hb : black.contains e.hash
      · simp only [hb, if_true]
        exact ih rest black post hstackRest hblack hsound hord
      · simp only [hb, if_false, Bool.false_eq_true]
        by_cases hknown : e.seq ≤ peerSeq st e.author
        · simp only [hknown, if_true]
          refine ih rest (e.hash :: black) post hstackRest ?_ hsound hord
          intro h hh
          rcases List.mem_cons.mp hh with hh | hh
          · exact Or.inr ⟨e, by rw [hh]; exact hstackE, hknown⟩
          · exact hblack h hh
        · simp only [hknown, if_false]
          by_cases hgray : ((g.parentsOf e).filter
              (fun p => !(black.contains p.hash))).isEmpty
          · simp only [hgray, if_true]
            have hparblack : ∀ p, p ∈ g.parentsOf e → p.hash ∈ black := by
              intro p hp
              have hnil := List.isEmpty_iff.mp hgray
              have := List.filter_eq_nil.mp hnil p hp
              simp at this
              simpa using this
            have hlt : peerSeq st e.author < e.seq := Nat.lt_of_not_le hknown
            refine ih rest (e.hash :: black) (post ++ [e]) hstackRest ?_ ?_ ?_
            · intro h hh
              rcases List.mem_cons.mp hh with hh | hh
              · refine Or.inl ⟨post.length, ?_⟩
                rw [List.get?_concat_length]
                simp [hh]
              · rcases hblack h hh with ⟨j, hj⟩ | hk
                · have hjlen : j < post.length := by
                    by_contra hge
                    rw [List.get?_eq_none.mpr (Nat.le_of_not_lt hge)] at hj
                    cases hj
                  exact Or.inl ⟨j, by rw [List.get?_append hjlen]; exact hj⟩
                · exact Or.inr hk
            · intro x hx
              rcases List.mem_append.mp hx with hx | hx
              · exact hsound x hx
              · rw [List.mem_singleton.mp hx]
                exact hlt
            · intro i x hgx p hp
              by_cases hi : i < post.length
              · rw [List.get?_append hi] at hgx
                rcases hord i x hgx p hp with hk | ⟨j, hji, hj⟩
                · exact Or.inl hk
                · refine Or.inr ⟨j, hji, ?_⟩
                  rw [List.get?_append (Nat.lt_trans hji hi)]
                  exact hj
              · have hilen : i = post.length := by
                  have hi2 : i < (post ++ [e]).length := by
                    rcases List.get?_eq_some.mp hgx with ⟨h2, _⟩
                    exact h2
                  simp at hi2
                  omega
                subst hilen
                rw [List.get?_concat_length] at hgx
                have hxe : x = e := by
                  injection hgx with h2
                  exact h2.symm
                subst hxe
                have hpb : p.hash ∈ black := hparblack p hp
                rcases hblack p.hash hpb with ⟨j, hj⟩ | ⟨e2, he2, hle2⟩
                · have hjlen : j < post.length := by
                    by_contra hge
                    rw [List.get?_eq_none.mpr (Nat.le_of_not_lt hge)] at hj
                    cases hj
                  refine Or.inr ⟨j, hjlen, ?_⟩
                  rw [List.get?_append hjlen]
                  exact hj
                · have hpe : g.event p.hash = some p := parentsOf_lookup g hwf x p hp
                  rw [hpe] at he2
                  injection he2 with he2
                  exact Or.inl (he2 ▸ hle2)
          · simp only [hgray, if_false]
            refine ih (((g.parentsOf e).filter
                (fun p => !(black.contains p.hash))).reverse ++ e :: rest) black post
              ?_ hblack hsound hord
            intro x hx
            rcases List.mem_append.mp hx with hx | hx
            · have hx2 : x ∈ (g.parentsOf e).filter (fun p => !(black.contains p.hash)) :=
                List.mem_reverse.mp hx
              exact parentsOf_lookup g hwf e x (List.mem_of_mem_filter hx2)
            · rcases List.mem_cons.mp hx with hx | hx
              · exact hx ▸ hstackE
              · exact hstackRest x hx

/-- C6 (amended): every event in the sync stream is missing from the peer
(seq strictly above the peer's high-water mark for its author, so no
peer-known event is ever emitted), and every event is emitted only after
each of its (present) parents was either emitted earlier in the stream or
is already known by the peer; the stream consists of the raw events of
`syncEvents`.  (Completeness, as the counterexample shows, fails: events
outside the root's ancestor cone are missing from the stream even when the
peer lacks them.) -/
theorem c6_sync_sound_topological (g : Graph) (st : List (Author × Nat))
    (hwf : ∀ h e, g.event h = some e → e.hash = h) :
    (∀ e, e ∈ g.syncEvents st → peerSeq st e.author < e.seq) ∧
    (∀ i e, (g.syncEvents st).get? i = some e → ∀ p, p ∈ g.parentsOf e →
      p.seq ≤ peerSeq st p.author ∨
      ∃ j, j < i ∧ ((g.syncEvents st).get? j).map (·.hash) = some p.hash) ∧
    g.sync st = (g.syncEvents st).map (·.raw) := by
  have key : ∃ stack0 : List Event, (∀ e, e ∈ stack0 → g.event e.hash = some e) ∧
      g.syncEvents st = syncLoop g st g.fuel stack0 [] [] := by
    cases hr : g.root with
    | none =>
      refine ⟨[], ?_, ?_⟩
      · intro e he
        cases he
      · unfold Graph.syncEvents
        simp only [hr]
    | some root =>
      cases hre : g.event root with
      | none =>
        refine ⟨[], ?_, ?_⟩
        · intro e he
          cases he
        · unfold Graph.syncEvents
          simp only [hr, hre]
      | some re =>
        refine ⟨[re], ?_, ?_⟩
        · intro e he
          rw [List.mem_singleton.mp he]
          rw [hwf root re hre]
          exact hre
        · unfold Graph.syncEvents
          simp only [hr, hre]
  obtain ⟨stack0, hstack0, heq⟩ := key
  have H := syncLoop_spec g st hwf g.fuel stack0 [] [] hstack0
    (by intro h hh; cases hh)
    (by intro e he; cases he)
    (by intro i e hg; cases hg)
  refine ⟨?_, ?_, rfl⟩
  · rw [heq]
    exact H.1
  · rw [heq]
    exact H.2

/-- A graph whose stored entries all carry their own key as hash is
well-formed in the sense `c6_sync_sound_topological` needs. -/
theorem wf_of_entries (g : Graph) (hent : ∀ p, p ∈ g.events → p.2.hash = p.1) :
    ∀ h e, g.event h = some e → e.hash = h := by
  intro h e hsome
  unfold Graph.event alistGet at hsome
  cases hf : g.events.find? (fun p => decide (p.1 = h)) with
  | none => rw [hf] at hsome; cases hsome
  | some pr =>
    rw [hf] at hsome
    injection hsome with hsome
    have hpred := List.find?_some hf
    have hkey : pr.1 = h := by simpa using hpred
    have hmem : pr ∈ g.events := List.mem_of_find?_eq_some hf
    rw [← hsome]
    rw [hent pr hmem]
    exact hkey

/-- Closed instance of `c6_sync_sound_topological` on the fork graph with
an empty peer: the stream is `[1, 3]`, and the second emitted event's
parent (hash 1) was emitted earlier (at index 0) or known to the peer. -/
theorem c6_sync_sound_topological_witness :
    ((graphFork.syncEvents []).map (·.hash) = [1, 3]) ∧
    (∀ p, p ∈ graphFork.parentsOf
        { raw := fork3, hash := 3, seq := 2, parents := [1], children := [],
          round_created := none, witness := none, votes := [], famous := none,
          round_received := none, time_received := none, whitened_signature := none } →
      p.seq ≤ peerSeq [] p.author ∨
      ∃ j, j < 1 ∧ ((graphFork.syncEvents []).get? j).map (·.hash) = some p.hash) := by
  constructor
  · decide
  · exact (c6_sync_sound_topological graphFork []
      (wf_of_entries graphFork (by decide))).2.1 1
      { raw := fork3, hash := 3, seq := 2, parents := [1], children := [],
        round_created := none, witness := none, votes := [], famous := none,
        round_received := none, time_received := none, whitened_signature := none }
      (by decide)

end Hashgraph
